import Mathlib

/-
  Shallow embedding of src/src/wayland/meta-wayland-transaction.c.

  Surfaces and transactions are identified by natural numbers.  A committed
  transaction is identified by its commit sequence number (the C code gives
  every committed transaction a unique, monotonically increasing
  `committed_sequence`; identifying the two loses nothing, since every
  comparison the code performs on committed transactions is either pointer
  identity or a comparison of the sequence numbers).

  The per-surface pending-state object (MetaWaylandSurfaceState) is opaque to
  this module; it is modelled by a type parameter `σ` together with the two
  external operations the module calls on it:
    - `mergeS : Option σ → σ → σ` models meta_wayland_surface_state_merge_into
      (first argument is the `from` state, which the C code may pass as NULL,
      hence the Option);
    - `pl : σ → List PlacementOp` models reading state->subsurface_placement_ops.

  The surface tree (surface->sub.parent) is a function `parent : Nat → Option
  Nat`; walks along parent pointers are given explicit fuel, since the C code
  relies on the tree being finite and acyclic.
-/

set_option linter.unusedVariables false

/-- Entry of a transaction for one surface: optional state snapshot plus an
optional sub-surface position override, mirroring MetaWaylandTransactionEntry
(fields state, has_sub_pos, x, y). -/
structure TEntry (σ : Type) where
  state : Option σ
  has_sub_pos : Bool
  x : Int
  y : Int
deriving DecidableEq, Repr

/-- Zero-initialized entry, as produced by g_new0 in
meta_wayland_transaction_ensure_entry. -/
def empty_entry {σ : Type} : TEntry σ := ⟨none, false, 0, 0⟩

/-- Association list from surface id to entry, modelling the transaction's
entries hash table (unique keys; the list order models the hash table's
iteration order). -/
abbrev Txn (σ : Type) := List (Nat × TEntry σ)

/-- One sub-surface placement operation inside a state snapshot, mirroring
MetaWaylandSubsurfacePlacementOp as used by
meta_wayland_transaction_add_placement_surfaces: it names an optional surface
and an optional sibling. -/
structure PlacementOp where
  surface : Option Nat
  sibling : Option Nat
deriving DecidableEq, Repr

/-- Lookup of the entry of a surface, mirroring
meta_wayland_transaction_get_entry (g_hash_table_lookup). -/
def get_entry {σ : Type} (t : Txn σ) (s : Nat) : Option (TEntry σ) :=
  (t.find? (fun p => p.1 == s)).map (·.2)

/-- Hash-table insert of an entry under a surface key: replaces the entry if
the key is present, otherwise adds a new key. -/
def set_entry {σ : Type} (t : Txn σ) (s : Nat) (e : TEntry σ) : Txn σ :=
  if (get_entry t s).isSome then
    t.map (fun p => if p.1 == s then (s, e) else p)
  else
    t ++ [(s, e)]

/-- Mirrors meta_wayland_transaction_ensure_entry: return the transaction
unchanged if the surface already has an entry, otherwise create a
zero-initialized entry for it. -/
def meta_wayland_transaction_ensure_entry {σ : Type} (t : Txn σ) (s : Nat) : Txn σ :=
  if (get_entry t s).isSome then t else t ++ [(s, empty_entry)]

/-- Mirrors meta_wayland_transaction_add_subsurface_position: ensure an entry
for the surface, then set x, y and has_sub_pos on it. -/
def meta_wayland_transaction_add_subsurface_position {σ : Type}
    (t : Txn σ) (s : Nat) (x y : Int) : Txn σ :=
  let t1 := meta_wayland_transaction_ensure_entry t s
  let e := (get_entry t1 s).getD empty_entry
  set_entry t1 s { e with x := x, y := y, has_sub_pos := true }

/-- Mirrors meta_wayland_transaction_merge_pending_state: ensure an entry; if
it has no snapshot yet the pending state is adopted directly, otherwise the
pending state is folded into the snapshot with the external merge operation
(the surface's own pending_state reset/renewal is outside this module).
merge_pending_entry is the per-entry branch on entry->state. -/
def merge_pending_entry {σ : Type} (mergeS : Option σ → σ → σ) (pending : σ)
    (e : TEntry σ) : TEntry σ :=
  match e.state with
  | none => { e with state := some pending }
  | some st => { e with state := some (mergeS (some pending) st) }

/-- Mirrors meta_wayland_transaction_merge_pending_state: ensure an entry and
fold the surface's pending state into it with merge_pending_entry. -/
def meta_wayland_transaction_merge_pending_state {σ : Type}
    (mergeS : Option σ → σ → σ) (t : Txn σ) (s : Nat) (pending : σ) : Txn σ :=
  let t1 := meta_wayland_transaction_ensure_entry t s
  set_entry t1 s (merge_pending_entry mergeS pending ((get_entry t1 s).getD empty_entry))

/-- Mirrors meta_wayland_transaction_add_placement_surfaces: walk the
placement operations of a state snapshot and ensure (possibly empty) entries
for every surface and sibling they name. -/
def meta_wayland_transaction_add_placement_surfaces {σ : Type}
    (t : Txn σ) (ops : List PlacementOp) : Txn σ :=
  ops.foldl (fun acc op =>
    let acc1 := match op.surface with
      | some s => meta_wayland_transaction_ensure_entry acc s
      | none => acc
    match op.sibling with
    | some sib => meta_wayland_transaction_ensure_entry acc1 sib
    | none => acc1) t

/-- Mirrors meta_wayland_transaction_add_entry: insert the entry under the
surface key and, if it carries a state snapshot, ensure entries for the
surfaces named by that snapshot's placement operations. -/
def meta_wayland_transaction_add_entry {σ : Type} (pl : σ → List PlacementOp)
    (t : Txn σ) (s : Nat) (e : TEntry σ) : Txn σ :=
  match e.state with
  | some st => meta_wayland_transaction_add_placement_surfaces (set_entry t s e) (pl st)
  | none => set_entry t s e

/-- Mirrors meta_wayland_transaction_entry_merge_into, returning the resulting
`to` entry (the C code mutates `to` in place and clears `from`'s state
pointer; `from` is destroyed by the caller right after the merge): a position
override on `from` wins; if `to` has a snapshot the snapshots are combined by
the external merge, otherwise `to` adopts `from`'s snapshot.
entry_pos_merged is the first half (the position override). -/
def entry_pos_merged {σ : Type} (f t : TEntry σ) : TEntry σ :=
  if f.has_sub_pos then { t with x := f.x, y := f.y, has_sub_pos := true } else t

/-- Second half of meta_wayland_transaction_entry_merge_into: the branch on
to->state. -/
def meta_wayland_transaction_entry_merge_into {σ : Type}
    (mergeS : Option σ → σ → σ) (f t : TEntry σ) : TEntry σ :=
  match (entry_pos_merged f t).state with
  | some ts => { entry_pos_merged f t with state := some (mergeS f.state ts) }
  | none => { entry_pos_merged f t with state := f.state }

/-- Loop body of meta_wayland_transaction_merge_into for one entry of
`from`: an entry whose surface is absent from `to` is moved over with
add_entry (stealing it); otherwise placement surfaces of `from`'s snapshot
are ensured in `to` and the two entries are merged. -/
def merge_step {σ : Type} (mergeS : Option σ → σ → σ) (pl : σ → List PlacementOp)
    (tacc : Txn σ) (fp : Nat × TEntry σ) : Txn σ :=
  match get_entry tacc fp.1 with
  | none => meta_wayland_transaction_add_entry pl tacc fp.1 fp.2
  | some te =>
    set_entry
      (match fp.2.state with
       | some st => meta_wayland_transaction_add_placement_surfaces tacc (pl st)
       | none => tacc)
      fp.1 (meta_wayland_transaction_entry_merge_into mergeS fp.2 te)

/-- Mirrors meta_wayland_transaction_merge_into: fold merge_step over the
entries of `from`.  `from` is destroyed afterwards, so only the resulting
`to` is returned. -/
def meta_wayland_transaction_merge_into {σ : Type}
    (mergeS : Option σ → σ → σ) (pl : σ → List PlacementOp)
    (f t : Txn σ) : Txn σ :=
  f.foldl (merge_step mergeS pl) t

/-- Mirrors is_ancestor: walk the parent chain of `reference` and report
whether `candidate` occurs on it.  The fuel bounds the walk; the C code relies
on the chain being finite. -/
def is_ancestor (parent : Nat → Option Nat) : Nat → Nat → Nat → Bool
  | 0, _, _ => false
  | fuel+1, candidate, reference =>
    match parent reference with
    | none => false
    | some a => a == candidate || is_ancestor parent fuel candidate a

/-- Mirrors meta_wayland_surface_get_toplevel: follow parent pointers to the
root of the surface's tree (identity of the root models the toplevel surface
pointer the C code compares). -/
def meta_wayland_surface_get_toplevel (parent : Nat → Option Nat) : Nat → Nat → Nat
  | 0, s => s
  | fuel+1, s =>
    match parent s with
    | none => s
    | some p => meta_wayland_surface_get_toplevel parent fuel p

/-- Mirrors meta_wayland_transaction_compare: surfaces with the same parent
compare equal; if surface1 is an ancestor of surface2 the result is 1 and
symmetrically -1; otherwise the surfaces are ordered by the identities of
their toplevel surfaces. -/
def meta_wayland_transaction_compare (parent : Nat → Option Nat) (fuel : Nat)
    (surface1 surface2 : Nat) : Int :=
  if parent surface1 = parent surface2 then 0
  else if is_ancestor parent fuel surface1 surface2 then 1
  else if is_ancestor parent fuel surface2 surface1 then -1
  else if meta_wayland_surface_get_toplevel parent fuel surface1 <
          meta_wayland_surface_get_toplevel parent fuel surface2 then -1
  else 1

/-- Comparator-consistent insertion used to model the qsort call in
meta_wayland_transaction_apply: an element already in the list stays before
the new one whenever the comparator does not order it strictly after. -/
def sort_insert (parent : Nat → Option Nat) (fuel : Nat) (s : Nat) :
    List Nat → List Nat
  | [] => [s]
  | a :: rest =>
    if meta_wayland_transaction_compare parent fuel a s ≤ 0 then
      a :: sort_insert parent fuel s rest
    else
      s :: a :: rest

/-- Model of the qsort of the surface array with
meta_wayland_transaction_compare (insertion sort with the same comparator). -/
def sort_surfaces (parent : Nat → Option Nat) (fuel : Nat) : List Nat → List Nat
  | [] => []
  | a :: rest => sort_insert parent fuel a (sort_surfaces parent fuel rest)

/-- Decides whether the parent chain of a surface reaches a root within the
given fuel; theorems about the comparator assume this (the compositor's
surface tree is finite and acyclic). -/
def rooted (parent : Nat → Option Nat) : Nat → Nat → Bool
  | 0, s => (parent s).isNone
  | fuel+1, s =>
    match parent s with
    | none => true
    | some p => rooted parent fuel p

/-- Length of the parent chain of a surface, up to the given fuel. -/
def chain_depth (parent : Nat → Option Nat) : Nat → Nat → Nat
  | 0, _ => 0
  | fuel+1, s =>
    match parent s with
    | none => 0
    | some p => chain_depth parent fuel p + 1

/-- Sorted insertion into the candidate chain, mirroring the pointer walk in
ensure_next_candidate: advance while the candidate's commit sequence is below
the new transaction's, then link the transaction in. -/
def candidate_insert (t : Nat) : List Nat → List Nat
  | [] => [t]
  | c :: rest => if c < t then c :: candidate_insert t rest else t :: c :: rest

/-- Mirrors ensure_next_candidate: a transaction already on the candidate
chain (next_candidate non-NULL in the C code, which for a chained transaction
is either another transaction or the NONE sentinel) is left alone; otherwise
it is inserted in commit-sequence order.  The chain is modelled as the list of
transactions linked from first_candidate, excluding the NONE sentinel. -/
def ensure_next_candidate (t : Nat) (chain : List Nat) : List Nat :=
  if t ∈ chain then chain else candidate_insert t chain

/-- Events recorded by the model: invocation of
meta_wayland_transaction_apply on a transaction, application of a state
snapshot to a surface (meta_wayland_surface_apply_state), and the
second-pass child-actor synchronization
(meta_wayland_transaction_sync_child_states). -/
inductive Ev where
  | apply_txn (t : Nat)
  | apply_state (t s : Nat)
  | sync_child (s : Nat)
deriving DecidableEq, Repr

/-- Global state of the transaction engine: the committed queue, each
committed transaction's entry table (indexed by its commit sequence; kept as
history after the transaction is freed so that properties can mention it),
every surface's first_committed/last_committed pointers, each transaction's
node.data flag (set by commit, checked by free), the global commit-sequence
counter, each surface's live sub-surface position, the surface tree with the
fuel bounding parent walks, and two histories: the log of apply events and the
list of destroyed transactions. -/
structure St (σ : Type) where
  committed_queue : List Nat
  entries : Nat → Txn σ
  first_committed : Nat → Option Nat
  last_committed : Nat → Option Nat
  node_data : Nat → Bool
  committed_sequence : Nat
  sub_pos : Nat → Int × Int
  parent : Nat → Option Nat
  pfuel : Nat
  log : List Ev
  freed : List Nat

/-- Keys of a transaction's entry table
(g_hash_table_get_keys_as_array / iteration over the entries). -/
def surfaces_of {σ : Type} (st : St σ) (t : Nat) : List Nat :=
  (st.entries t).map (·.1)

/-- Part of the committed queue strictly after a transaction's node
(iteration from transaction->node.next). -/
def suffix_after (cur : Nat) : List Nat → List Nat
  | [] => []
  | q :: qs => if q == cur then qs else suffix_after cur qs

/-- Mirrors find_next_transaction_for_surface: scan the committed queue after
the transaction for the first transaction that is the surface's
last_committed or whose entry table contains the surface. -/
def find_next_transaction_for_surface {σ : Type} (st : St σ) (cur s : Nat) :
    Option Nat :=
  (suffix_after cur st.committed_queue).find?
    (fun nxt => st.last_committed s == some nxt || decide (s ∈ surfaces_of st nxt))

/-- Mirrors meta_wayland_transaction_free: unlink from the committed queue
when node.data is set (the transaction was committed), and destroy the
transaction (recorded in the freed history). -/
def meta_wayland_transaction_free {σ : Type} (t : Nat) (st : St σ) : St σ :=
  if st.node_data t then
    { st with committed_queue := st.committed_queue.erase t, freed := st.freed ++ [t] }
  else
    { st with freed := st.freed ++ [t] }

/-- Application of the entry's position override to the surface's live
position (meta_wayland_transaction_apply_subsurface_position). -/
def apply_pos_effect {σ : Type} (s : Nat) (e : TEntry σ) (st : St σ) : St σ :=
  if e.has_sub_pos then
    { st with sub_pos := fun n => if n = s then (e.x, e.y) else st.sub_pos n }
  else st

/-- Application of the entry's state snapshot
(meta_wayland_surface_apply_state), recorded in the event log. -/
def apply_state_effect {σ : Type} (cur s : Nat) (e : TEntry σ) (st : St σ) : St σ :=
  if e.state.isSome then { st with log := st.log ++ [Ev.apply_state cur s] } else st

/-- Per-surface commit-chain advance of meta_wayland_transaction_apply: if
this transaction is the surface's last_committed the chain is drained and
both pointers cleared, otherwise the next transaction for the surface
becomes its first_committed and is registered on the candidate chain. -/
def advance_chain {σ : Type} (cur s : Nat) (acc : St σ × List Nat) :
    St σ × List Nat :=
  if acc.1.last_committed s = some cur then
    ({ acc.1 with
        first_committed := fun n => if n = s then none else acc.1.first_committed n,
        last_committed := fun n => if n = s then none else acc.1.last_committed n },
     acc.2)
  else
    match find_next_transaction_for_surface acc.1 cur s with
    | some nxt =>
      ({ acc.1 with
          first_committed := fun n => if n = s then some nxt else acc.1.first_committed n },
       ensure_next_candidate nxt acc.2)
    | none => acc

/-- Body of the first, ancestors-to-descendants pass of
meta_wayland_transaction_apply for one surface: apply the entry's position
override, apply its state snapshot, then advance the surface's commit
chain. -/
def apply_surface {σ : Type} (cur : Nat) (acc : St σ × List Nat) (s : Nat) :
    St σ × List Nat :=
  match get_entry (acc.1.entries cur) s with
  | none => acc
  | some e =>
    advance_chain cur s (apply_state_effect cur s e (apply_pos_effect s e acc.1), acc.2)

/-- Body of the second, descendants-to-ancestors pass of
meta_wayland_transaction_apply for one surface: invoke the child actor
synchronization when the surface's entry had a state snapshot (states[i] in
the C code; the entry table is not modified by the first pass, so reading it
here sees the recorded value). -/
def sync_step {σ : Type} (cur : Nat) (s2 : St σ) (s : Nat) : St σ :=
  if (match get_entry (s2.entries cur) s with
      | some e => e.state.isSome
      | none => false) then
    { s2 with log := s2.log ++ [Ev.sync_child s] }
  else s2

/-- Mirrors meta_wayland_transaction_apply: sort the transaction's surfaces
with the comparator, run the first pass front-to-back (state application and
commit-chain advance), run the second pass back-to-front (sync_step), and
free the transaction. -/
def meta_wayland_transaction_apply {σ : Type} (cur : Nat) (chain : List Nat)
    (st : St σ) : St σ × List Nat :=
  let sorted := sort_surfaces st.parent st.pfuel (surfaces_of st cur)
  let st0 : St σ := { st with log := st.log ++ [Ev.apply_txn cur] }
  let r := sorted.foldl (apply_surface cur) (st0, chain)
  (meta_wayland_transaction_free cur
    (sorted.reverse.foldl (sync_step cur) r.1), r.2)

/-- Mirrors has_unapplied_dependencies: some surface of the transaction has a
first_committed other than the transaction itself. -/
def has_unapplied_dependencies {σ : Type} (st : St σ) (t : Nat) : Bool :=
  (surfaces_of st t).any (fun s => st.first_committed s != some t)

/-- Mirrors meta_wayland_transaction_maybe_apply_one: apply the transaction
unless it still has unapplied dependencies. -/
def meta_wayland_transaction_maybe_apply_one {σ : Type} (t : Nat)
    (chain : List Nat) (st : St σ) : St σ × List Nat :=
  if has_unapplied_dependencies st t then (st, chain)
  else meta_wayland_transaction_apply t chain st

/-- Mirrors the loop of meta_wayland_transaction_maybe_apply: try to apply
the current transaction, then pop the lowest-sequence candidate off the
candidate chain and repeat until the chain is empty.  The fuel bounds the
number of iterations (each iteration of the C loop either applies a queued
transaction or pops a previously inserted candidate, so the loop is finite;
running out of fuel merely stops early, which is sound for every safety
property proved below). -/
def meta_wayland_transaction_maybe_apply {σ : Type} :
    Nat → Nat → List Nat → St σ → St σ
  | 0, _, _, st => st
  | fuel+1, t, chain, st =>
    let r := meta_wayland_transaction_maybe_apply_one t chain st
    match r.2 with
    | [] => r.1
    | c :: rest => meta_wayland_transaction_maybe_apply fuel c rest r.1

/-- Body of the per-surface registration loop of
meta_wayland_transaction_commit for one surface: set the surface's
last_committed to the new transaction; if it had no first_committed, claim
it, otherwise remember that the transaction may not apply immediately.  (The
C code writes last_committed before reading first_committed; the two fields
are independent, so the read sees the same value either way.) -/
def commit_register_step {σ : Type} (t : Nat) (acc : St σ × Bool) (s : Nat) :
    St σ × Bool :=
  match acc.1.first_committed s with
  | none =>
    ({ acc.1 with
        last_committed := fun n => if n = s then some t else acc.1.last_committed n,
        first_committed := fun n => if n = s then some t else acc.1.first_committed n },
     acc.2)
  | some _ =>
    ({ acc.1 with
        last_committed := fun n => if n = s then some t else acc.1.last_committed n },
     false)

/-- Per-surface registration loop of meta_wayland_transaction_commit. -/
def meta_wayland_transaction_commit_register {σ : Type} (t : Nat) (st : St σ) :
    St σ × Bool :=
  (surfaces_of st t).foldl (commit_register_step t) (st, true)

/-- First half of meta_wayland_transaction_commit: assign the next commit
sequence (which is also the transaction's identity in this model), set
node.data, store the entry table, and link the transaction to the tail of
the committed queue. -/
def commit_push {σ : Type} (tentries : Txn σ) (st : St σ) : St σ :=
  { st with
    committed_sequence := st.committed_sequence + 1,
    node_data := fun n => if n = st.committed_sequence + 1 then true else st.node_data n,
    entries := fun n => if n = st.committed_sequence + 1 then tentries else st.entries n,
    committed_queue := st.committed_queue ++ [st.committed_sequence + 1] }

/-- Value of the maybe_apply flag of meta_wayland_transaction_commit: true
exactly when the commit invokes the apply/cascade engine before returning. -/
def commit_invokes_engine {σ : Type} (tentries : Txn σ) (st : St σ) : Bool :=
  (meta_wayland_transaction_commit_register (st.committed_sequence + 1)
    (commit_push tentries st)).2

/-- Mirrors meta_wayland_transaction_commit: push the transaction
(commit_push), register it on each of its surfaces' commit chains, and
invoke the apply/cascade engine when every surface was previously
unclaimed. -/
def meta_wayland_transaction_commit {σ : Type} (tentries : Txn σ) (fuel : Nat)
    (st : St σ) : St σ :=
  if commit_invokes_engine tentries st then
    meta_wayland_transaction_maybe_apply fuel (st.committed_sequence + 1) []
      (meta_wayland_transaction_commit_register (st.committed_sequence + 1)
        (commit_push tentries st)).1
  else
    (meta_wayland_transaction_commit_register (st.committed_sequence + 1)
      (commit_push tentries st)).1

/-- Loop of meta_wayland_transaction_finalize, with the queue length as
explicit fuel: pop the head of the committed queue and free it until the
queue is empty. -/
def finalize_go {σ : Type} : Nat → St σ → St σ
  | 0, st => st
  | n+1, st =>
    match st.committed_queue with
    | [] => st
    | t :: rest => finalize_go n (meta_wayland_transaction_free t { st with committed_queue := rest })

/-- Mirrors meta_wayland_transaction_finalize: drain the whole committed
queue, freeing every transaction without applying it. -/
def meta_wayland_transaction_finalize {σ : Type} (st : St σ) : St σ :=
  finalize_go st.committed_queue.length st

/-- Mirrors meta_wayland_transaction_init: empty committed queue, no surface
claimed by any transaction, counter at zero, no history. -/
def St.init (σ : Type) (parent : Nat → Option Nat) (pfuel : Nat) : St σ where
  committed_queue := []
  entries := fun _ => []
  first_committed := fun _ => none
  last_committed := fun _ => none
  node_data := fun _ => false
  committed_sequence := 0
  sub_pos := fun _ => (0, 0)
  parent := parent
  pfuel := pfuel
  log := []
  freed := []

/-- Transactions on which meta_wayland_transaction_apply has been invoked, in
invocation order. -/
def applied_ids {σ : Type} (st : St σ) : List Nat :=
  st.log.filterMap (fun e => match e with
    | Ev.apply_txn t => some t
    | _ => none)

/-- One externally triggered operation on the engine state: a commit of a new
transaction (with unique entry keys, as in a hash table), or an invocation of
the apply/cascade engine on a committed, still-queued transaction (the entry
point meta_wayland_transaction_maybe_apply; its callers outside this file
invoke it when a queued transaction may have become ready). -/
inductive Step {σ : Type} : St σ → St σ → Prop where
  | commit (st : St σ) (tentries : Txn σ) (fuel : Nat)
      (h : (tentries.map (·.1)).Nodup) :
      Step st (meta_wayland_transaction_commit tentries fuel st)
  | maybe_apply (st : St σ) (t fuel : Nat) (h : t ∈ st.committed_queue) :
      Step st (meta_wayland_transaction_maybe_apply fuel t [] st)

/-- Reachability from a given starting state by commit/apply/cascade steps. -/
inductive ReachFrom {σ : Type} (st0 : St σ) : St σ → Prop where
  | refl : ReachFrom st0 st0
  | step {st1 st2 : St σ} : ReachFrom st0 st1 → Step st1 st2 → ReachFrom st0 st2

/-- Structural well-formedness of an engine state: the committed queue is
ordered by commit sequence and bounded by the counter, entry tables have
unique keys, node.data marks exactly the committed transactions (still queued
or already applied), and every surface's first_committed/last_committed are
the first/last queued transactions containing the surface. -/
structure EngWF {σ : Type} (st : St σ) : Prop where
  qsorted : st.committed_queue.Pairwise (· < ·)
  qbound : ∀ t ∈ st.committed_queue, t ≤ st.committed_sequence
  keysnd : ∀ t, (surfaces_of st t).Nodup
  node : ∀ t, st.node_data t = true → t ∈ st.committed_queue ∨ t ∈ applied_ids st
  nodef : ∀ t ∈ st.committed_queue, st.node_data t = true
  first : ∀ s, st.first_committed s =
    (st.committed_queue.filter (fun t => decide (s ∈ surfaces_of st t))).head?
  last : ∀ s, st.last_committed s =
    (st.committed_queue.filter (fun t => decide (s ∈ surfaces_of st t))).getLast?

/-- Full invariant: well-formedness together with the history facts — applied
transactions are bounded by the counter and disjoint from the queue, every
applied transaction sharing a surface with a queued one is strictly older,
and for each surface the applied transactions containing it were applied in
commit-sequence order. -/
structure EngInv {σ : Type} (st : St σ) extends EngWF st : Prop where
  abound : ∀ t ∈ applied_ids st, t ≤ st.committed_sequence
  qa : ∀ t ∈ st.committed_queue, t ∉ applied_ids st
  ord : ∀ s t1 t2, t1 ∈ applied_ids st → t2 ∈ st.committed_queue →
    s ∈ surfaces_of st t1 → s ∈ surfaces_of st t2 → t1 < t2
  logs : ∀ s,
    ((applied_ids st).filter (fun t => decide (s ∈ surfaces_of st t))).Pairwise (· < ·)

/-! Basic lemmas about the candidate chain. -/

theorem mem_candidate_insert {x t : Nat} {l : List Nat} :
    x ∈ candidate_insert t l ↔ x = t ∨ x ∈ l := by
  induction l with
  | nil => simp [candidate_insert]
  | cons c r ih =>
    simp only [candidate_insert]
    split
    · simp only [List.mem_cons, ih]
      tauto
    · simp only [List.mem_cons]

theorem pairwise_candidate_insert {t : Nat} {l : List Nat}
    (hs : l.Pairwise (· < ·)) (hm : t ∉ l) :
    (candidate_insert t l).Pairwise (· < ·) := by
  induction l with
  | nil => simp [candidate_insert]
  | cons c r ih =>
    rw [List.pairwise_cons] at hs
    simp only [List.mem_cons, not_or] at hm
    simp only [candidate_insert]
    split
    · rw [List.pairwise_cons]
      refine ⟨?_, ih hs.2 hm.2⟩
      intro x hx
      rcases mem_candidate_insert.mp hx with rfl | hx
      · assumption
      · exact hs.1 x hx
    · rename_i hct
      have htc : t < c := by
        rcases Nat.lt_or_ge t c with h | h
        · exact h
        · exact absurd (Nat.lt_of_le_of_ne h (Ne.symm hm.1)) hct
      rw [List.pairwise_cons]
      refine ⟨?_, List.pairwise_cons.mpr hs⟩
      intro x hx
      rcases List.mem_cons.mp hx with rfl | hx
      · exact htc
      · exact Nat.lt_trans htc (hs.1 x hx)

/-- C6: throughout a cascade run the candidate chain stays sorted ascending by
commit sequence and free of duplicates, insertion skips a transaction already
present, the inserted transaction is present afterwards, and the transaction
dequeued next (the head the cascade loop pops) has the lowest commit sequence
on the chain. -/
theorem c6_candidate_chain_invariants (t : Nat) (chain : List Nat)
    (hs : chain.Pairwise (· < ·)) :
    (ensure_next_candidate t chain).Pairwise (· < ·) ∧
    (ensure_next_candidate t chain).Nodup ∧
    (t ∈ chain → ensure_next_candidate t chain = chain) ∧
    t ∈ ensure_next_candidate t chain ∧
    (∀ hd rest, ensure_next_candidate t chain = hd :: rest → ∀ x ∈ rest, hd < x) := by
  have hres : (ensure_next_candidate t chain).Pairwise (· < ·) := by
    unfold ensure_next_candidate
    split
    · exact hs
    · exact pairwise_candidate_insert hs (by assumption)
  refine ⟨hres, hres.imp (fun h => Nat.ne_of_lt h), ?_, ?_, ?_⟩
  · intro hm
    unfold ensure_next_candidate
    simp [hm]
  · unfold ensure_next_candidate
    split
    · assumption
    · exact mem_candidate_insert.mpr (Or.inl rfl)
  · intro hd rest heq x hx
    rw [heq, List.pairwise_cons] at hres
    exact hres.1 x hx

/-- Closed instance of c6_candidate_chain_invariants on a concrete sorted
chain. -/
theorem c6_candidate_chain_invariants_witness :
    ([2, 5, 9] : List Nat).Pairwise (· < ·) ∧
    ((ensure_next_candidate 7 [2, 5, 9]).Pairwise (· < ·) ∧
     (ensure_next_candidate 7 [2, 5, 9]).Nodup ∧
     (7 ∈ [2, 5, 9] → ensure_next_candidate 7 [2, 5, 9] = [2, 5, 9]) ∧
     7 ∈ ensure_next_candidate 7 [2, 5, 9] ∧
     (∀ hd rest, ensure_next_candidate 7 [2, 5, 9] = hd :: rest → ∀ x ∈ rest, hd < x)) :=
  ⟨by decide, c6_candidate_chain_invariants 7 [2, 5, 9] (by decide)⟩

/-- C10: freeing a transaction whose node.data was never set (it was never
committed — commit is the only operation that sets node.data) leaves the
committed queue unchanged; free unlinks from the queue only for committed
transactions. -/
theorem c10_free_uncommitted_leaves_queue {σ : Type} (st : St σ) (t : Nat)
    (h : st.node_data t = false) :
    (meta_wayland_transaction_free t st).committed_queue = st.committed_queue ∧
    (meta_wayland_transaction_free t st).freed = st.freed ++ [t] := by
  unfold meta_wayland_transaction_free
  rw [h]
  simp

/-- Closed instance of c10_free_uncommitted_leaves_queue at a concrete
state. -/
theorem c10_free_uncommitted_leaves_queue_witness :
    (St.init Unit (fun _ => none) 0).node_data 5 = false ∧
    ((meta_wayland_transaction_free 5 (St.init Unit (fun _ => none) 0)).committed_queue =
      (St.init Unit (fun _ => none) 0).committed_queue ∧
     (meta_wayland_transaction_free 5 (St.init Unit (fun _ => none) 0)).freed =
      (St.init Unit (fun _ => none) 0).freed ++ [5]) :=
  ⟨rfl, c10_free_uncommitted_leaves_queue (St.init Unit (fun _ => none) 0) 5 rfl⟩

/-- Specification of the finalize loop: with enough fuel and a
duplicate-free queue it empties the queue, frees every queued transaction in
order, and leaves the log untouched. -/
theorem finalize_go_spec {σ : Type} :
    ∀ (n : Nat) (st : St σ), st.committed_queue.Nodup →
      st.committed_queue.length ≤ n →
      (finalize_go n st).committed_queue = [] ∧
      (finalize_go n st).log = st.log ∧
      (finalize_go n st).freed = st.freed ++ st.committed_queue := by
  intro n
  induction n with
  | zero =>
    intro st hnd hlen
    have : st.committed_queue = [] := List.eq_nil_of_length_eq_zero (Nat.le_zero.mp hlen)
    simp [finalize_go, this]
  | succ n ih =>
    intro st hnd hlen
    match hq : st.committed_queue with
    | [] => simp [finalize_go, hq]
    | t :: rest =>
      rw [hq] at hnd hlen
      have hnotmem : t ∉ rest := (List.nodup_cons.mp hnd).1
      have hrest : rest.Nodup := (List.nodup_cons.mp hnd).2
      simp only [finalize_go, hq]
      by_cases hnd2 : st.node_data t
      · have h2 := ih (meta_wayland_transaction_free t { st with committed_queue := rest })
        rw [meta_wayland_transaction_free] at h2 ⊢
        simp only [hnd2, if_pos, List.erase_of_not_mem hnotmem] at h2 ⊢
        have h3 := h2 hrest (by simpa using Nat.le_of_succ_le_succ hlen)
        refine ⟨h3.1, h3.2.1, ?_⟩
        rw [h3.2.2]
        simp
      · have h2 := ih (meta_wayland_transaction_free t { st with committed_queue := rest })
        rw [meta_wayland_transaction_free] at h2 ⊢
        simp only [hnd2, if_neg, Bool.false_eq_true, not_false_iff] at h2 ⊢
        have h3 := h2 hrest (by simpa using Nat.le_of_succ_le_succ hlen)
        refine ⟨h3.1, h3.2.1, ?_⟩
        rw [h3.2.2]
        simp

/-- C8: running finalize on a queue of committed, unapplied transactions
removes and destroys every one of them, leaves the committed queue empty, and
never invokes apply (or any per-surface state application) — the event log is
unchanged. -/
theorem c8_finalize_drains_without_applying {σ : Type} (st : St σ)
    (h : st.committed_queue.Nodup) :
    (meta_wayland_transaction_finalize st).committed_queue = [] ∧
    (meta_wayland_transaction_finalize st).log = st.log ∧
    (meta_wayland_transaction_finalize st).freed = st.freed ++ st.committed_queue :=
  finalize_go_spec st.committed_queue.length st h (Nat.le_refl _)

/-- Closed instance of c8_finalize_drains_without_applying on a state with
two queued transactions. -/
theorem c8_finalize_drains_without_applying_witness :
    ({ St.init Unit (fun _ => none) 0 with
        committed_queue := [1, 2],
        node_data := fun n => n = 1 || n = 2 } : St Unit).committed_queue.Nodup ∧
    ((meta_wayland_transaction_finalize
        ({ St.init Unit (fun _ => none) 0 with
            committed_queue := [1, 2],
            node_data := fun n => n = 1 || n = 2 } : St Unit)).committed_queue = [] ∧
     (meta_wayland_transaction_finalize
        ({ St.init Unit (fun _ => none) 0 with
            committed_queue := [1, 2],
            node_data := fun n => n = 1 || n = 2 } : St Unit)).log =
      ({ St.init Unit (fun _ => none) 0 with
          committed_queue := [1, 2],
          node_data := fun n => n = 1 || n = 2 } : St Unit).log ∧
     (meta_wayland_transaction_finalize
        ({ St.init Unit (fun _ => none) 0 with
            committed_queue := [1, 2],
            node_data := fun n => n = 1 || n = 2 } : St Unit)).freed =
      ({ St.init Unit (fun _ => none) 0 with
          committed_queue := [1, 2],
          node_data := fun n => n = 1 || n = 2 } : St Unit).freed ++
        ({ St.init Unit (fun _ => none) 0 with
            committed_queue := [1, 2],
            node_data := fun n => n = 1 || n = 2 } : St Unit).committed_queue) :=
  ⟨by decide, c8_finalize_drains_without_applying _ (by decide)⟩

/-- C3: evaluation of the code at a transaction touching a parent (surface 0)
and its child (surface 1, parent 0), both with state snapshots.  The
comparator returns 1 for (ancestor, descendant), so the sort places the child
first; consequently the first pass applies the child's state before the
parent's and the second pass syncs the parent's actor state before the
child's — contradicting the code's own comments (Sort surfaces from ancestors
to descendants / Apply states from ancestors to descendants) and the claim. -/
theorem c3_apply_order_diverges :
    meta_wayland_transaction_compare (fun n => if n = 1 then some 0 else none) 2 0 1 = 1 ∧
    sort_surfaces (fun n => if n = 1 then some 0 else none) 2 [0, 1] = [1, 0] ∧
    (meta_wayland_transaction_commit
        [(0, (⟨some (), false, 0, 0⟩ : TEntry Unit)), (1, ⟨some (), true, 3, 4⟩)] 5
        (St.init Unit (fun n => if n = 1 then some 0 else none) 2)).log =
      [Ev.apply_txn 1, Ev.apply_state 1 1, Ev.apply_state 1 0,
       Ev.sync_child 0, Ev.sync_child 1] := by
  refine ⟨by decide, by decide, ?_⟩
  decide

/-- C4 counterexample: in the forest with root 0, children 1 and 2 of 0, and
child 3 of 1, the surfaces 2 and 3 have different parents, neither is an
ancestor of the other, and they share toplevel 0 — so the comparator returns
1 in both orientations, refuting antisymmetry/consistency and hence the
strict-weak-ordering claim. -/
theorem c4_not_strict_weak_order :
    meta_wayland_transaction_compare
      (fun n => if n = 1 then some 0 else if n = 2 then some 0
                else if n = 3 then some 1 else none) 4 2 3 = 1 ∧
    meta_wayland_transaction_compare
      (fun n => if n = 1 then some 0 else if n = 2 then some 0
                else if n = 3 then some 1 else none) 4 3 2 = 1 := by
  constructor <;> decide

/-! Theory of the surface comparator over rooted (finite, acyclic) parent
chains. -/

theorem rooted_succ {parent : Nat → Option Nat} :
    ∀ {F s : Nat}, rooted parent F s = true → rooted parent (F + 1) s = true := by
  intro F
  induction F with
  | zero =>
    intro s h
    simp only [rooted, Option.isNone_iff_eq_none] at h
    simp [rooted, h]
  | succ F ih =>
    intro s h
    simp only [rooted] at h ⊢
    cases hp : parent s with
    | none => rfl
    | some p =>
      rw [hp] at h
      exact ih h

theorem chain_depth_stable {parent : Nat → Option Nat} :
    ∀ {F s : Nat}, rooted parent F s = true →
      chain_depth parent (F + 1) s = chain_depth parent F s := by
  intro F
  induction F with
  | zero =>
    intro s h
    simp only [rooted, Option.isNone_iff_eq_none] at h
    simp [chain_depth, h]
  | succ F ih =>
    intro s h
    simp only [rooted] at h
    cases hp : parent s with
    | none => simp [chain_depth, hp]
    | some p =>
      rw [hp] at h
      have e1 : chain_depth parent (F + 1 + 1) s = chain_depth parent (F + 1) p + 1 := by
        conv_lhs => rw [chain_depth]
        rw [hp]
      have e2 : chain_depth parent (F + 1) s = chain_depth parent F p + 1 := by
        conv_lhs => rw [chain_depth]
        rw [hp]
      rw [e1, e2, ih h]

theorem toplevel_stable {parent : Nat → Option Nat} :
    ∀ {F s : Nat}, rooted parent F s = true →
      meta_wayland_surface_get_toplevel parent (F + 1) s =
        meta_wayland_surface_get_toplevel parent F s := by
  intro F
  induction F with
  | zero =>
    intro s h
    simp only [rooted, Option.isNone_iff_eq_none] at h
    simp [meta_wayland_surface_get_toplevel, h]
  | succ F ih =>
    intro s h
    simp only [rooted] at h
    simp only [meta_wayland_surface_get_toplevel]
    cases hp : parent s with
    | none => rfl
    | some p =>
      rw [hp] at h
      exact ih h

theorem rooted_of_ancestor {parent : Nat → Option Nat} :
    ∀ {F a b : Nat}, rooted parent F b = true → is_ancestor parent F a b = true →
      rooted parent F a = true := by
  intro F
  induction F with
  | zero =>
    intro a b _ h
    simp [is_ancestor] at h
  | succ F ih =>
    intro a b hb h
    simp only [is_ancestor] at h
    simp only [rooted] at hb
    cases hp : parent b with
    | none => rw [hp] at h; exact absurd h (by simp)
    | some p =>
      rw [hp] at h hb
      simp only [Bool.or_eq_true, beq_iff_eq] at h
      rcases h with rfl | h
      · exact rooted_succ hb
      · exact rooted_succ (ih hb h)

theorem chain_depth_lt_of_ancestor {parent : Nat → Option Nat} :
    ∀ {F a b : Nat}, rooted parent F b = true → is_ancestor parent F a b = true →
      chain_depth parent F a < chain_depth parent F b := by
  intro F
  induction F with
  | zero =>
    intro a b _ h
    simp [is_ancestor] at h
  | succ F ih =>
    intro a b hb h
    simp only [is_ancestor] at h
    simp only [rooted] at hb
    cases hp : parent b with
    | none => rw [hp] at h; exact absurd h (by simp)
    | some p =>
      rw [hp] at h hb
      simp only [Bool.or_eq_true, beq_iff_eq] at h
      have hdb : chain_depth parent (F + 1) b = chain_depth parent F p + 1 := by
        simp [chain_depth, hp]
      rcases h with rfl | h
      · rw [hdb, chain_depth_stable hb]
        exact Nat.lt_succ_self _
      · have hra : rooted parent F a = true := rooted_of_ancestor hb h
        rw [hdb, chain_depth_stable hra]
        exact Nat.lt_trans (ih hb h) (Nat.lt_succ_self _)

theorem ancestor_asymm {parent : Nat → Option Nat} {F a b : Nat}
    (hb : rooted parent F b = true) (h : is_ancestor parent F a b = true) :
    is_ancestor parent F b a = false := by
  by_contra hba
  have hba2 : is_ancestor parent F b a = true := by
    cases hx : is_ancestor parent F b a
    · exact absurd hx hba
    · rfl
  have hra : rooted parent F a = true := rooted_of_ancestor hb h
  have h1 := chain_depth_lt_of_ancestor hb h
  have h2 := chain_depth_lt_of_ancestor hra hba2
  exact Nat.lt_irrefl _ (Nat.lt_trans h1 h2)

theorem self_parent_not_rooted {parent : Nat → Option Nat} :
    ∀ {F s : Nat}, parent s = some s → rooted parent F s = false := by
  intro F
  induction F with
  | zero =>
    intro s h
    simp [rooted, h]
  | succ F ih =>
    intro s h
    simp only [rooted, h]
    exact ih h

theorem parent_ne_of_ancestor {parent : Nat → Option Nat} {F a b : Nat}
    (hb : rooted parent F b = true) (h : is_ancestor parent F a b = true) :
    parent a ≠ parent b := by
  intro heq
  cases F with
  | zero => simp [is_ancestor] at h
  | succ F =>
    simp only [is_ancestor] at h
    simp only [rooted] at hb
    cases hp : parent b with
    | none => rw [hp] at h; exact absurd h (by simp)
    | some p =>
      rw [hp] at h hb
      simp only [Bool.or_eq_true, beq_iff_eq] at h
      rcases h with rfl | h
      · have heq2 : parent p = some p := heq.trans hp
        have hfalse : rooted parent F p = false := self_parent_not_rooted heq2
        have hb2 : rooted parent F p = true := hb
        rw [hfalse] at hb2
        exact absurd hb2 (by simp)
      · have hra : rooted parent F a = true := rooted_of_ancestor hb h
        have hlt := chain_depth_lt_of_ancestor hb h
        have hap : parent a = some p := heq.trans hp
        have hda : chain_depth parent (F + 1) a = chain_depth parent F p + 1 := by
          conv_lhs => rw [chain_depth]
          rw [hap]
        rw [chain_depth_stable hra] at hda
        omega

theorem toplevel_eq_of_ancestor {parent : Nat → Option Nat} :
    ∀ {F a b : Nat}, rooted parent F b = true → is_ancestor parent F a b = true →
      meta_wayland_surface_get_toplevel parent F a =
        meta_wayland_surface_get_toplevel parent F b := by
  intro F
  induction F with
  | zero =>
    intro a b _ h
    simp [is_ancestor] at h
  | succ F ih =>
    intro a b hb h
    simp only [is_ancestor] at h
    simp only [rooted] at hb
    cases hp : parent b with
    | none => rw [hp] at h; exact absurd h (by simp)
    | some p =>
      rw [hp] at h hb
      simp only [Bool.or_eq_true, beq_iff_eq] at h
      have htb : meta_wayland_surface_get_toplevel parent (F + 1) b =
          meta_wayland_surface_get_toplevel parent F p := by
        simp [meta_wayland_surface_get_toplevel, hp]
      rcases h with rfl | h
      · rw [htb, toplevel_stable hb]
      · have hra : rooted parent F a = true := rooted_of_ancestor hb h
        rw [htb, toplevel_stable hra, ih hb h]

/-- C4 amended: over any forest in which the parent chains of the two
surfaces are rooted within the fuel, the comparator is consistent (results of
opposite sign, or both zero) for same-parent pairs, for ancestor-related
pairs — where the ancestor compares greater, so descendants sort first — and
for unrelated pairs whose toplevel surfaces differ; but for pairs with
different parents, no ancestry relation, and the same toplevel surface, both
orientations return 1, so the comparator is not antisymmetric and not a
strict weak ordering. -/
theorem c4_compare_characterization (parent : Nat → Option Nat) (F a b : Nat)
    (ha : rooted parent F a = true) (hb : rooted parent F b = true) :
    (parent a = parent b →
      meta_wayland_transaction_compare parent F a b = 0 ∧
      meta_wayland_transaction_compare parent F b a = 0) ∧
    (is_ancestor parent F a b = true →
      meta_wayland_transaction_compare parent F a b = 1 ∧
      meta_wayland_transaction_compare parent F b a = -1) ∧
    (parent a ≠ parent b → is_ancestor parent F a b = false →
      is_ancestor parent F b a = false →
      meta_wayland_surface_get_toplevel parent F a ≠
        meta_wayland_surface_get_toplevel parent F b →
      meta_wayland_transaction_compare parent F a b =
        -(meta_wayland_transaction_compare parent F b a) ∧
      meta_wayland_transaction_compare parent F a b ≠ 0) ∧
    (parent a ≠ parent b → is_ancestor parent F a b = false →
      is_ancestor parent F b a = false →
      meta_wayland_surface_get_toplevel parent F a =
        meta_wayland_surface_get_toplevel parent F b →
      meta_wayland_transaction_compare parent F a b = 1 ∧
      meta_wayland_transaction_compare parent F b a = 1) := by
  refine ⟨?_, ?_, ?_, ?_⟩
  · intro hpp
    constructor
    · simp [meta_wayland_transaction_compare, hpp]
    · simp [meta_wayland_transaction_compare, hpp]
  · intro hanc
    have hpp : parent a ≠ parent b := parent_ne_of_ancestor hb hanc
    have hba : is_ancestor parent F b a = false := ancestor_asymm hb hanc
    constructor
    · simp [meta_wayland_transaction_compare, hpp, hanc]
    · simp [meta_wayland_transaction_compare, Ne.symm hpp, hba, hanc]
  · intro hpp hab hba htl
    rcases Nat.lt_or_ge (meta_wayland_surface_get_toplevel parent F a)
        (meta_wayland_surface_get_toplevel parent F b) with hlt | hge
    · have hnlt : ¬ meta_wayland_surface_get_toplevel parent F b <
          meta_wayland_surface_get_toplevel parent F a := Nat.lt_asymm hlt
      constructor
      · simp [meta_wayland_transaction_compare, hpp, Ne.symm hpp, hab, hba, hlt, hnlt]
      · simp [meta_wayland_transaction_compare, hpp, hab, hba, hlt]
    · have hlt2 : meta_wayland_surface_get_toplevel parent F b <
          meta_wayland_surface_get_toplevel parent F a :=
        Nat.lt_of_le_of_ne hge (Ne.symm htl)
      have hnlt : ¬ meta_wayland_surface_get_toplevel parent F a <
          meta_wayland_surface_get_toplevel parent F b := Nat.lt_asymm hlt2
      constructor
      · simp [meta_wayland_transaction_compare, hpp, Ne.symm hpp, hab, hba, hlt2, hnlt]
      · simp [meta_wayland_transaction_compare, hpp, hab, hba, hnlt]
  · intro hpp hab hba htl
    constructor
    · simp [meta_wayland_transaction_compare, hpp, hab, hba, htl]
    · simp [meta_wayland_transaction_compare, Ne.symm hpp, hab, hba, htl.symm]

/-- Closed instance of c4_compare_characterization on the concrete forest
with root 0 and child 1. -/
theorem c4_compare_characterization_witness :
    rooted (fun n => if n = 1 then some 0 else none) 2 0 = true ∧
    rooted (fun n => if n = 1 then some 0 else none) 2 1 = true ∧
    (is_ancestor (fun n => if n = 1 then some 0 else none) 2 0 1 = true →
      meta_wayland_transaction_compare (fun n => if n = 1 then some 0 else none) 2 0 1 = 1 ∧
      meta_wayland_transaction_compare (fun n => if n = 1 then some 0 else none) 2 1 0 = -1) :=
  ⟨by decide, by decide,
   (c4_compare_characterization (fun n => if n = 1 then some 0 else none) 2 0 1
      (by decide) (by decide)).2.1⟩

/-- Decides whether an entry carries a state snapshot or a position override;
the spec's invariant says every entry must. -/
def entry_meaningful {σ : Type} (e : TEntry σ) : Bool :=
  e.state.isSome || e.has_sub_pos

/-- C5 counterexample: merging a transaction whose single entry carries a
state snapshot with a placement operation naming surface 5 into an empty
transaction makes placement-surface registration create an entry for surface
5 with neither a state snapshot nor a position override. -/
theorem c5_placement_entry_empty :
    get_entry
      (meta_wayland_transaction_merge_into
        (fun f t => f.getD [] ++ t) (fun st => st)
        [(1, (⟨some [⟨some 5, none⟩], false, 0, 0⟩ : TEntry (List PlacementOp)))]
        [])
      5 = some ⟨none, false, 0, 0⟩ ∧
    entry_meaningful (⟨none, false, 0, 0⟩ : TEntry (List PlacementOp)) = false := by
  constructor <;> decide

/-! Lemmas about entry lookup and insertion. -/

theorem get_entry_cons_ne {σ : Type} (p : Nat × TEntry σ) (rest : Txn σ) (s : Nat)
    (h : p.1 ≠ s) : get_entry (p :: rest) s = get_entry rest s := by
  simp only [get_entry, List.find?]
  have : (p.1 == s) = false := beq_eq_false_iff_ne.mpr h
  rw [this]

theorem get_entry_cons_eq {σ : Type} (p : Nat × TEntry σ) (rest : Txn σ) (s : Nat)
    (h : p.1 = s) : get_entry (p :: rest) s = some p.2 := by
  simp only [get_entry, List.find?]
  have : (p.1 == s) = true := beq_iff_eq.mpr h
  rw [this]
  rfl

theorem get_entry_set_entry_self {σ : Type} :
    ∀ (t : Txn σ) (s : Nat) (e : TEntry σ),
      get_entry (set_entry t s e) s = some e := by
  intro t
  induction t with
  | nil =>
    intro s e
    simp [set_entry, get_entry, List.find?]
  | cons p rest ih =>
    intro s e
    by_cases hps : p.1 = s
    · have hpresent : (get_entry (p :: rest) s).isSome := by
        rw [get_entry_cons_eq p rest s hps]
        rfl
      simp only [set_entry, hpresent, if_pos, List.map]
      have : (p.1 == s) = true := beq_iff_eq.mpr hps
      rw [this]
      simp only [if_pos]
      exact get_entry_cons_eq (s, e) _ s rfl
    · have hskip : get_entry (p :: rest) s = get_entry rest s :=
        get_entry_cons_ne p rest s hps
      by_cases hpres : (get_entry rest s).isSome
      · have hpresent : (get_entry (p :: rest) s).isSome = true := by rw [hskip]; exact hpres
        have hpresent2 : (get_entry rest s).isSome = true := hpres
        simp only [set_entry, hpresent, if_pos, List.map]
        have hne : (p.1 == s) = false := beq_eq_false_iff_ne.mpr hps
        rw [hne]
        simp only [if_neg, Bool.false_eq_true, not_false_iff]
        have := ih s e
        simp only [set_entry, hpresent2, if_pos] at this
        calc get_entry (p :: List.map (fun p => if (p.1 == s) = true then (s, e) else p) rest) s
            = get_entry (List.map (fun p => if (p.1 == s) = true then (s, e) else p) rest) s :=
              get_entry_cons_ne _ _ s hps
          _ = some e := this
      · have hpresent : (get_entry (p :: rest) s).isSome = false := by
          rw [hskip]
          exact Bool.not_eq_true _ ▸ (by simpa using hpres)
        have hpresent2 : (get_entry rest s).isSome = false := by simpa using hpres
        simp only [set_entry, hpresent, Bool.false_eq_true, if_neg, not_false_iff]
        have := ih s e
        simp only [set_entry, hpresent2, Bool.false_eq_true, if_neg, not_false_iff] at this
        calc get_entry (p :: rest ++ [(s, e)]) s
            = get_entry (rest ++ [(s, e)]) s := get_entry_cons_ne _ _ s hps
          _ = some e := this

/-- C5 amended: every entry written by add_subsurface_position or
merge_pending_state carries a position override or a state snapshot; the
original claim fails only for placement-surface registration
(meta_wayland_transaction_add_placement_surfaces, reached directly or through
merge_into), which deliberately creates state-less, override-less entries so
that the sort knows about the named surfaces. -/
theorem c5_written_entries_meaningful {σ : Type} (mergeS : Option σ → σ → σ)
    (t : Txn σ) (s : Nat) (x y : Int) (pending : σ) :
    (∃ e, get_entry (meta_wayland_transaction_add_subsurface_position t s x y) s = some e ∧
      entry_meaningful e = true) ∧
    (∃ e, get_entry (meta_wayland_transaction_merge_pending_state mergeS t s pending) s = some e ∧
      entry_meaningful e = true) := by
  constructor
  · refine ⟨{ (get_entry (meta_wayland_transaction_ensure_entry t s) s).getD empty_entry with
        x := x, y := y, has_sub_pos := true }, ?_, by simp [entry_meaningful]⟩
    exact get_entry_set_entry_self _ s _
  · refine ⟨merge_pending_entry mergeS pending
        ((get_entry (meta_wayland_transaction_ensure_entry t s) s).getD empty_entry), ?_, ?_⟩
    · exact get_entry_set_entry_self _ s _
    · unfold merge_pending_entry entry_meaningful
      cases ((get_entry (meta_wayland_transaction_ensure_entry t s) s).getD empty_entry).state <;>
        simp

/-! Frame lemmas for merge_into. -/

theorem get_entry_append_left {σ : Type} :
    ∀ (t l : Txn σ) (s : Nat), (get_entry t s).isSome →
      get_entry (t ++ l) s = get_entry t s := by
  intro t
  induction t with
  | nil =>
    intro l s h
    simp [get_entry] at h
  | cons p rest ih =>
    intro l s h
    by_cases hps : p.1 = s
    · rw [List.cons_append, get_entry_cons_eq p _ s hps, get_entry_cons_eq p rest s hps]
    · rw [List.cons_append, get_entry_cons_ne p _ s hps, get_entry_cons_ne p rest s hps]
      rw [get_entry_cons_ne p rest s hps] at h
      exact ih l s h

theorem get_entry_ensure_entry_of_isSome {σ : Type} (t : Txn σ) (k s : Nat)
    (h : (get_entry t s).isSome) :
    get_entry (meta_wayland_transaction_ensure_entry t k) s = get_entry t s := by
  unfold meta_wayland_transaction_ensure_entry
  split
  · rfl
  · exact get_entry_append_left t _ s h

theorem get_entry_placement_of_isSome {σ : Type} :
    ∀ (ops : List PlacementOp) (t : Txn σ) (s : Nat), (get_entry t s).isSome →
      get_entry (meta_wayland_transaction_add_placement_surfaces t ops) s = get_entry t s := by
  intro ops
  induction ops with
  | nil =>
    intro t s h
    rfl
  | cons op rest ih =>
    intro t s h
    have hstep : ∀ (u : Txn σ), (get_entry u s).isSome →
        get_entry
          (match op.sibling with
           | some sib => meta_wayland_transaction_ensure_entry u sib
           | none => u) s = get_entry u s := by
      intro u hu
      cases op.sibling with
      | none => rfl
      | some sib => exact get_entry_ensure_entry_of_isSome u sib s hu
    have hstep0 : ∀ (u : Txn σ), (get_entry u s).isSome →
        get_entry
          (match op.surface with
           | some k => meta_wayland_transaction_ensure_entry u k
           | none => u) s = get_entry u s := by
      intro u hu
      cases op.surface with
      | none => rfl
      | some k => exact get_entry_ensure_entry_of_isSome u k s hu
    show get_entry (meta_wayland_transaction_add_placement_surfaces _ rest) s = get_entry t s
    rw [ih _ s ?_, hstep _ ?_, hstep0 t h]
    · rw [hstep0 t h]
      exact h
    · rw [hstep _ ?_, hstep0 t h]
      · exact h
      · rw [hstep0 t h]
        exact h

theorem get_entry_map_set_ne {σ : Type} (k s : Nat) (e : TEntry σ) (hks : k ≠ s) :
    ∀ (t : Txn σ),
      get_entry (t.map (fun p => if (p.1 == k) = true then (k, e) else p)) s =
        get_entry t s := by
  intro t
  induction t with
  | nil => rfl
  | cons p rest ih =>
    by_cases hpk : p.1 = k
    · have hbeq : (p.1 == k) = true := beq_iff_eq.mpr hpk
      simp only [List.map, hbeq, if_pos]
      rw [get_entry_cons_ne (k, e) _ s hks, get_entry_cons_ne p rest s (hpk ▸ hks), ih]
    · have hbeq : (p.1 == k) = false := beq_eq_false_iff_ne.mpr hpk
      simp only [List.map, hbeq, Bool.false_eq_true, if_neg, not_false_iff]
      by_cases hps : p.1 = s
      · rw [get_entry_cons_eq p _ s hps, get_entry_cons_eq p rest s hps]
      · rw [get_entry_cons_ne p _ s hps, get_entry_cons_ne p rest s hps, ih]

theorem get_entry_append_single_ne {σ : Type} (k s : Nat) (e : TEntry σ) (hks : k ≠ s) :
    ∀ (t : Txn σ), get_entry (t ++ [(k, e)]) s = get_entry t s := by
  intro t
  induction t with
  | nil =>
    show get_entry [(k, e)] s = none
    rw [get_entry_cons_ne (k, e) [] s hks]
    rfl
  | cons p rest ih =>
    by_cases hps : p.1 = s
    · rw [List.cons_append, get_entry_cons_eq p _ s hps, get_entry_cons_eq p rest s hps]
    · rw [List.cons_append, get_entry_cons_ne p _ s hps, get_entry_cons_ne p rest s hps, ih]

theorem get_entry_set_entry_ne {σ : Type} (t : Txn σ) (k s : Nat) (e : TEntry σ)
    (hks : k ≠ s) : get_entry (set_entry t k e) s = get_entry t s := by
  unfold set_entry
  split
  · exact get_entry_map_set_ne k s e hks t
  · exact get_entry_append_single_ne k s e hks t

theorem get_entry_add_entry_ne {σ : Type} (pl : σ → List PlacementOp) (t : Txn σ)
    (k s : Nat) (e : TEntry σ) (hks : k ≠ s) (h : (get_entry t s).isSome) :
    get_entry (meta_wayland_transaction_add_entry pl t k e) s = get_entry t s := by
  unfold meta_wayland_transaction_add_entry
  cases e.state with
  | none => exact get_entry_set_entry_ne t k s e hks
  | some st =>
    rw [get_entry_placement_of_isSome _ _ s ?_, get_entry_set_entry_ne t k s e hks]
    rw [get_entry_set_entry_ne t k s e hks]
    exact h

theorem get_entry_merge_step_ne {σ : Type} (mergeS : Option σ → σ → σ)
    (pl : σ → List PlacementOp) (t : Txn σ) (fp : Nat × TEntry σ) (s : Nat)
    (hks : fp.1 ≠ s) (h : (get_entry t s).isSome) :
    get_entry (merge_step mergeS pl t fp) s = get_entry t s := by
  unfold merge_step
  cases hge : get_entry t fp.1 with
  | none => exact get_entry_add_entry_ne pl t fp.1 s fp.2 hks h
  | some te =>
    cases fp.2.state with
    | none => exact get_entry_set_entry_ne t fp.1 s _ hks
    | some st =>
      rw [get_entry_set_entry_ne _ fp.1 s _ hks, get_entry_placement_of_isSome _ _ s h]

theorem get_entry_split {σ : Type} :
    ∀ (f : Txn σ) (s : Nat) (fe : TEntry σ), get_entry f s = some fe →
      ∃ pre post, f = pre ++ (s, fe) :: post ∧ ∀ p ∈ pre, p.1 ≠ s := by
  intro f
  induction f with
  | nil =>
    intro s fe h
    simp [get_entry] at h
  | cons p rest ih =>
    intro s fe h
    by_cases hps : p.1 = s
    · rw [get_entry_cons_eq p rest s hps] at h
      have hp : p = (s, fe) := by
        cases p with
        | mk k e =>
          simp at h hps
          rw [hps, h]
      refine ⟨[], rest, ?_, by simp⟩
      rw [hp]
      rfl
    · rw [get_entry_cons_ne p rest s hps] at h
      obtain ⟨pre, post, heq, hpre⟩ := ih s fe h
      refine ⟨p :: pre, post, by rw [heq]; rfl, ?_⟩
      intro q hq
      rcases List.mem_cons.mp hq with rfl | hq
      · exact hps
      · exact hpre q hq

theorem merge_fold_frame {σ : Type} (mergeS : Option σ → σ → σ)
    (pl : σ → List PlacementOp) (s : Nat) :
    ∀ (L : Txn σ) (acc : Txn σ), (∀ p ∈ L, p.1 ≠ s) → (get_entry acc s).isSome →
      get_entry (L.foldl (merge_step mergeS pl) acc) s = get_entry acc s := by
  intro L
  induction L with
  | nil =>
    intro acc _ _
    rfl
  | cons fp rest ih =>
    intro acc hne hsome
    have hfp : fp.1 ≠ s := hne fp (List.mem_cons_self fp rest)
    have hstep : get_entry (merge_step mergeS pl acc fp) s = get_entry acc s :=
      get_entry_merge_step_ne mergeS pl acc fp s hfp hsome
    show get_entry (rest.foldl (merge_step mergeS pl) (merge_step mergeS pl acc fp)) s =
      get_entry acc s
    rw [ih (merge_step mergeS pl acc fp) (fun p hp => hne p (List.mem_cons_of_mem fp hp)) ?_,
      hstep]
    rw [hstep]
    exact hsome

theorem get_entry_merge_step_eq {σ : Type} (mergeS : Option σ → σ → σ)
    (pl : σ → List PlacementOp) (acc : Txn σ) (s : Nat) (fe te : TEntry σ)
    (hacc : get_entry acc s = some te) :
    get_entry (merge_step mergeS pl acc (s, fe)) s =
      some (meta_wayland_transaction_entry_merge_into mergeS fe te) := by
  unfold merge_step
  simp only
  rw [hacc]
  cases hfs : fe.state with
  | none => exact get_entry_set_entry_self _ s _
  | some st => exact get_entry_set_entry_self _ s _

/-- C7: for a surface present in both transactions, merging `from` into `to`
combines the two entries with meta_wayland_transaction_entry_merge_into: a
position override on `from` replaces `to`'s (last write wins), otherwise
`to`'s position data is kept; two state snapshots are combined by the
external state-merge operation (with `from`'s discarded afterwards, as the
whole `from` transaction is destroyed); and when only `from` has a snapshot,
`to` adopts it. -/
theorem c7_merge_into_shared_surface {σ : Type} (mergeS : Option σ → σ → σ)
    (pl : σ → List PlacementOp) (f t : Txn σ) (s : Nat) (fe te : TEntry σ)
    (hnd : (f.map (·.1)).Nodup)
    (hf : get_entry f s = some fe) (ht : get_entry t s = some te) :
    get_entry (meta_wayland_transaction_merge_into mergeS pl f t) s =
      some (meta_wayland_transaction_entry_merge_into mergeS fe te) ∧
    (fe.has_sub_pos = true →
      (meta_wayland_transaction_entry_merge_into mergeS fe te).x = fe.x ∧
      (meta_wayland_transaction_entry_merge_into mergeS fe te).y = fe.y ∧
      (meta_wayland_transaction_entry_merge_into mergeS fe te).has_sub_pos = true) ∧
    (fe.has_sub_pos = false →
      (meta_wayland_transaction_entry_merge_into mergeS fe te).x = te.x ∧
      (meta_wayland_transaction_entry_merge_into mergeS fe te).y = te.y ∧
      (meta_wayland_transaction_entry_merge_into mergeS fe te).has_sub_pos = te.has_sub_pos) ∧
    (∀ fs ts, fe.state = some fs → te.state = some ts →
      (meta_wayland_transaction_entry_merge_into mergeS fe te).state =
        some (mergeS (some fs) ts)) ∧
    (te.state = none →
      (meta_wayland_transaction_entry_merge_into mergeS fe te).state = fe.state) := by
  have hposstate : (entry_pos_merged fe te).state = te.state := by
    unfold entry_pos_merged
    split <;> rfl
  refine ⟨?_, ?_, ?_, ?_, ?_⟩
  · obtain ⟨pre, post, heq, hpre⟩ := get_entry_split f s fe hf
    have hpost : ∀ p ∈ post, p.1 ≠ s := by
      rw [heq] at hnd
      simp only [List.map_append, List.map_cons, List.nodup_append] at hnd
      intro p hp hps
      exact (List.nodup_cons.mp hnd.2.1).1 (hps ▸ List.mem_map_of_mem (·.1) hp)
    rw [meta_wayland_transaction_merge_into, heq, List.foldl_append, List.foldl_cons]
    have hmid : get_entry (pre.foldl (merge_step mergeS pl) t) s = some te := by
      rw [merge_fold_frame mergeS pl s pre t hpre (by rw [ht]; rfl)]
      exact ht
    have hstep : get_entry
        (merge_step mergeS pl (pre.foldl (merge_step mergeS pl) t) (s, fe)) s =
        some (meta_wayland_transaction_entry_merge_into mergeS fe te) :=
      get_entry_merge_step_eq mergeS pl _ s fe te hmid
    rw [merge_fold_frame mergeS pl s post _ hpost (by rw [hstep]; rfl), hstep]
  · intro hp
    unfold meta_wayland_transaction_entry_merge_into
    rw [hposstate]
    have hpm : entry_pos_merged fe te =
        { te with x := fe.x, y := fe.y, has_sub_pos := true } := by
      unfold entry_pos_merged
      rw [hp]
      simp
    cases te.state <;> simp [hpm]
  · intro hp
    unfold meta_wayland_transaction_entry_merge_into
    rw [hposstate]
    have hpm : entry_pos_merged fe te = te := by
      unfold entry_pos_merged
      rw [hp]
      simp
    cases te.state <;> simp [hpm]
  · intro fs ts hfs hts
    unfold meta_wayland_transaction_entry_merge_into
    rw [hposstate, hts, hfs]
  · intro hts
    unfold meta_wayland_transaction_entry_merge_into
    rw [hposstate, hts]

/-- Closed instance of c7_merge_into_shared_surface on concrete one-entry
transactions sharing surface 3. -/
theorem c7_merge_into_shared_surface_witness :
    (([(3, (⟨some 10, true, 7, 8⟩ : TEntry Nat))] : Txn Nat).map (·.1)).Nodup ∧
    get_entry ([(3, (⟨some 10, true, 7, 8⟩ : TEntry Nat))] : Txn Nat) 3 =
      some ⟨some 10, true, 7, 8⟩ ∧
    get_entry ([(3, (⟨some 20, false, 1, 2⟩ : TEntry Nat))] : Txn Nat) 3 =
      some ⟨some 20, false, 1, 2⟩ ∧
    (get_entry
        (meta_wayland_transaction_merge_into (fun f t => f.getD 0 + t) (fun _ => [])
          [(3, (⟨some 10, true, 7, 8⟩ : TEntry Nat))]
          [(3, (⟨some 20, false, 1, 2⟩ : TEntry Nat))]) 3 =
      some (meta_wayland_transaction_entry_merge_into (fun f t => f.getD 0 + t)
        (⟨some 10, true, 7, 8⟩ : TEntry Nat) ⟨some 20, false, 1, 2⟩)) :=
  ⟨by decide, by decide, by decide,
   (c7_merge_into_shared_surface (fun f t => f.getD 0 + t) (fun _ => [])
      [(3, (⟨some 10, true, 7, 8⟩ : TEntry Nat))]
      [(3, (⟨some 20, false, 1, 2⟩ : TEntry Nat))] 3
      ⟨some 10, true, 7, 8⟩ ⟨some 20, false, 1, 2⟩
      (by decide) (by decide) (by decide)).1⟩

/-! Specification of the commit registration loop. -/

theorem list_all_congr {α : Type} {f g : α → Bool} :
    ∀ {l : List α}, (∀ x ∈ l, f x = g x) → l.all f = l.all g := by
  intro l
  induction l with
  | nil => intro _; rfl
  | cons a rest ih =>
    intro h
    simp only [List.all_cons]
    rw [h a (List.mem_cons_self a rest), ih (fun x hx => h x (List.mem_cons_of_mem a hx))]

theorem register_fold_spec {σ : Type} (t : Nat) :
    ∀ (L : List Nat) (st : St σ) (b : Bool), L.Nodup →
      (L.foldl (commit_register_step t) (st, b)).1.committed_queue = st.committed_queue ∧
      (L.foldl (commit_register_step t) (st, b)).1.entries = st.entries ∧
      (L.foldl (commit_register_step t) (st, b)).1.log = st.log ∧
      (L.foldl (commit_register_step t) (st, b)).1.committed_sequence = st.committed_sequence ∧
      (L.foldl (commit_register_step t) (st, b)).1.node_data = st.node_data ∧
      (L.foldl (commit_register_step t) (st, b)).1.freed = st.freed ∧
      (L.foldl (commit_register_step t) (st, b)).1.sub_pos = st.sub_pos ∧
      (L.foldl (commit_register_step t) (st, b)).1.parent = st.parent ∧
      (L.foldl (commit_register_step t) (st, b)).1.pfuel = st.pfuel ∧
      (∀ s, (L.foldl (commit_register_step t) (st, b)).1.last_committed s =
        if s ∈ L then some t else st.last_committed s) ∧
      (∀ s, (L.foldl (commit_register_step t) (st, b)).1.first_committed s =
        if s ∈ L ∧ st.first_committed s = none then some t else st.first_committed s) ∧
      ((L.foldl (commit_register_step t) (st, b)).2 =
        (b && L.all (fun s => (st.first_committed s).isNone))) := by
  intro L
  induction L with
  | nil =>
    intro st b _
    simp
  | cons a rest ih =>
    intro st b hnd
    have hna : a ∉ rest := (List.nodup_cons.mp hnd).1
    have hndr : rest.Nodup := (List.nodup_cons.mp hnd).2
    rw [List.foldl_cons]
    cases hfa : st.first_committed a with
    | none =>
      have hstep : commit_register_step t (st, b) a =
          ({ st with
              last_committed := fun n => if n = a then some t else st.last_committed n,
              first_committed := fun n => if n = a then some t else st.first_committed n },
           b) := by
        unfold commit_register_step
        simp only [hfa]
      rw [hstep]
      obtain ⟨h1, h2, h3, h4, h5, h6, h7, h8, h9, hlast, hfirst, hflag⟩ := ih _ b hndr
      refine ⟨h1, h2, h3, h4, h5, h6, h7, h8, h9, ?_, ?_, ?_⟩
      · intro s
        rw [hlast s]
        by_cases hsr : s ∈ rest
        · simp [hsr]
        · by_cases hsa : s = a
          · subst hsa
            simp [hsr]
          · simp [hsr, hsa]
      · intro s
        rw [hfirst s]
        by_cases hsr : s ∈ rest
        · have hsa : s ≠ a := fun h => hna (h ▸ hsr)
          simp only [hsa, if_neg, not_false_iff]
          by_cases hfs : st.first_committed s = none
          · simp [hsr, hfs, hsa]
          · simp [hsr, hfs, hsa]
        · by_cases hsa : s = a
          · subst hsa
            simp [hsr, hfa]
          · simp [hsr, hsa]
      · rw [hflag]
        have hcong : rest.all
              (fun s => (if s = a then some t else st.first_committed s).isNone) =
            rest.all (fun s => (st.first_committed s).isNone) := by
          apply list_all_congr
          intro x hx
          have : x ≠ a := fun h => hna (h ▸ hx)
          simp [this]
        rw [hcong]
        simp [hfa]
    | some v =>
      have hstep : commit_register_step t (st, b) a =
          ({ st with
              last_committed := fun n => if n = a then some t else st.last_committed n },
           false) := by
        unfold commit_register_step
        simp only [hfa]
      rw [hstep]
      obtain ⟨h1, h2, h3, h4, h5, h6, h7, h8, h9, hlast, hfirst, hflag⟩ := ih _ false hndr
      refine ⟨h1, h2, h3, h4, h5, h6, h7, h8, h9, ?_, ?_, ?_⟩
      · intro s
        rw [hlast s]
        by_cases hsr : s ∈ rest
        · simp [hsr]
        · by_cases hsa : s = a
          · subst hsa
            simp [hsr]
          · simp [hsr, hsa]
      · intro s
        rw [hfirst s]
        by_cases hsr : s ∈ rest
        · have hsa : s ≠ a := fun h => hna (h ▸ hsr)
          by_cases hfs : st.first_committed s = none
          · simp [hsr, hfs, hsa]
          · simp [hsr, hfs, hsa]
        · by_cases hsa : s = a
          · subst hsa
            simp [hsr, hfa]
          · simp [hsr, hsa]
      · rw [hflag]
        simp [hfa]

/-- C2: commit invokes the apply/cascade engine synchronously if and only if
every surface in the transaction's entry set had no first_committed
transaction at the start of the commit; otherwise commit returns with the
transaction appended to the committed queue and apply not invoked on
anything (the event log is unchanged). -/
theorem c2_commit_invokes_engine_iff {σ : Type} (tentries : Txn σ) (fuel : Nat)
    (st : St σ) (hnd : (tentries.map (·.1)).Nodup) :
    (commit_invokes_engine tentries st = true ↔
      ∀ s ∈ tentries.map (·.1), st.first_committed s = none) ∧
    (commit_invokes_engine tentries st = false →
      (meta_wayland_transaction_commit tentries fuel st).committed_queue =
        st.committed_queue ++ [st.committed_sequence + 1] ∧
      (meta_wayland_transaction_commit tentries fuel st).log = st.log) := by
  have hkeys : surfaces_of (commit_push tentries st) (st.committed_sequence + 1) =
      tentries.map (·.1) := by
    unfold surfaces_of commit_push
    simp
  have hfirst : (commit_push tentries st).first_committed = st.first_committed := rfl
  have hspec := register_fold_spec (st.committed_sequence + 1)
    (surfaces_of (commit_push tentries st) (st.committed_sequence + 1))
    (commit_push tentries st) true (by rw [hkeys]; exact hnd)
  obtain ⟨h1, h2, h3, h4, h5, h6, h7, h8, h9, hlast, hfirst2, hflag⟩ := hspec
  have hflag2 : commit_invokes_engine tentries st =
      (tentries.map (·.1)).all (fun s => (st.first_committed s).isNone) := by
    unfold commit_invokes_engine meta_wayland_transaction_commit_register
    rw [hflag, hfirst, hkeys]
    simp
  constructor
  · rw [hflag2]
    rw [List.all_eq_true]
    constructor
    · intro h s hs
      exact Option.isNone_iff_eq_none.mp (h s hs)
    · intro h s hs
      exact Option.isNone_iff_eq_none.mpr (h s hs)
  · intro hfalse
    unfold meta_wayland_transaction_commit
    rw [hfalse]
    simp only [Bool.false_eq_true, if_neg, not_false_iff]
    constructor
    · unfold meta_wayland_transaction_commit_register
      rw [h1]
      rfl
    · unfold meta_wayland_transaction_commit_register
      rw [h3]
      rfl

/-- Concrete engine state used by witnesses: transaction 1 is committed and
queued, claiming surface 0. -/
def sample_claimed_state : St Unit :=
  { St.init Unit (fun _ => none) 0 with
    committed_queue := [1],
    committed_sequence := 1,
    node_data := fun n => n = 1,
    entries := fun n => if n = 1 then [(0, ⟨some (), false, 0, 0⟩)] else [],
    first_committed := fun s => if s = 0 then some 1 else none,
    last_committed := fun s => if s = 0 then some 1 else none }

/-- Closed instance of c2_commit_invokes_engine_iff at a state where surface
0 is already claimed by transaction 1, so the commit of a transaction
touching surface 0 must stay queued. -/
theorem c2_commit_invokes_engine_iff_witness :
    (([(0, (⟨some (), false, 0, 0⟩ : TEntry Unit))] : Txn Unit).map (·.1)).Nodup ∧
    ((commit_invokes_engine [(0, (⟨some (), false, 0, 0⟩ : TEntry Unit))]
        sample_claimed_state = true ↔
      ∀ s ∈ ([(0, (⟨some (), false, 0, 0⟩ : TEntry Unit))] : Txn Unit).map (·.1),
        sample_claimed_state.first_committed s = none) ∧
     (commit_invokes_engine [(0, (⟨some (), false, 0, 0⟩ : TEntry Unit))]
        sample_claimed_state = false →
      (meta_wayland_transaction_commit [(0, (⟨some (), false, 0, 0⟩ : TEntry Unit))] 3
          sample_claimed_state).committed_queue =
        sample_claimed_state.committed_queue ++ [sample_claimed_state.committed_sequence + 1] ∧
      (meta_wayland_transaction_commit [(0, (⟨some (), false, 0, 0⟩ : TEntry Unit))] 3
          sample_claimed_state).log = sample_claimed_state.log)) :=
  ⟨by decide,
   c2_commit_invokes_engine_iff [(0, (⟨some (), false, 0, 0⟩ : TEntry Unit))] 3
     sample_claimed_state (by decide)⟩

/-! Lemmas for the empty-transaction commit. -/

theorem apply_empty_surfaces {σ : Type} (cur : Nat) (chain : List Nat) (st : St σ)
    (h : surfaces_of st cur = []) :
    meta_wayland_transaction_apply cur chain st =
      (meta_wayland_transaction_free cur
        { st with log := st.log ++ [Ev.apply_txn cur] }, chain) := by
  unfold meta_wayland_transaction_apply
  rw [h]
  rfl

/-- C9: committing a transaction with an empty entry set always applies it
immediately: the engine is invoked, the readiness check passes vacuously,
apply performs no per-surface work (the only new event is the apply
invocation itself), and the transaction is unlinked from the committed queue
and destroyed before commit returns, leaving the queue and all commit-chain
pointers as they were. -/
theorem c9_empty_commit_applies_immediately {σ : Type} (fuel : Nat) (st : St σ)
    (hb : ∀ x ∈ st.committed_queue, x ≤ st.committed_sequence) :
    commit_invokes_engine ([] : Txn σ) st = true ∧
    (meta_wayland_transaction_commit [] (fuel + 1) st).committed_queue =
      st.committed_queue ∧
    (meta_wayland_transaction_commit [] (fuel + 1) st).log =
      st.log ++ [Ev.apply_txn (st.committed_sequence + 1)] ∧
    (meta_wayland_transaction_commit [] (fuel + 1) st).freed =
      st.freed ++ [st.committed_sequence + 1] ∧
    (meta_wayland_transaction_commit [] (fuel + 1) st).first_committed =
      st.first_committed ∧
    (meta_wayland_transaction_commit [] (fuel + 1) st).last_committed =
      st.last_committed := by
  have hnotmem : st.committed_sequence + 1 ∉ st.committed_queue := by
    intro hmem
    have := hb _ hmem
    omega
  have hkeys : surfaces_of (commit_push ([] : Txn σ) st) (st.committed_sequence + 1) = [] := by
    unfold surfaces_of commit_push
    simp
  have hreg : meta_wayland_transaction_commit_register (st.committed_sequence + 1)
      (commit_push ([] : Txn σ) st) = (commit_push ([] : Txn σ) st, true) := by
    unfold meta_wayland_transaction_commit_register
    rw [hkeys]
    rfl
  have hinv : commit_invokes_engine ([] : Txn σ) st = true := by
    unfold commit_invokes_engine
    rw [hreg]
  have hdeps : has_unapplied_dependencies (commit_push ([] : Txn σ) st)
      (st.committed_sequence + 1) = false := by
    unfold has_unapplied_dependencies
    rw [hkeys]
    rfl
  have happly := apply_empty_surfaces (st.committed_sequence + 1) []
    (commit_push ([] : Txn σ) st) hkeys
  have hone : meta_wayland_transaction_maybe_apply_one (st.committed_sequence + 1) []
      (commit_push ([] : Txn σ) st) =
      (meta_wayland_transaction_free (st.committed_sequence + 1)
        { commit_push ([] : Txn σ) st with
          log := (commit_push ([] : Txn σ) st).log ++
            [Ev.apply_txn (st.committed_sequence + 1)] }, []) := by
    unfold meta_wayland_transaction_maybe_apply_one
    rw [hdeps]
    simp only [Bool.false_eq_true, if_neg, not_false_iff]
    exact happly
  have hnd : ({ commit_push ([] : Txn σ) st with
      log := (commit_push ([] : Txn σ) st).log ++
        [Ev.apply_txn (st.committed_sequence + 1)] } : St σ).node_data
      (st.committed_sequence + 1) = true := by
    unfold commit_push
    simp
  have hfree : meta_wayland_transaction_free (st.committed_sequence + 1)
      ({ commit_push ([] : Txn σ) st with
        log := (commit_push ([] : Txn σ) st).log ++
          [Ev.apply_txn (st.committed_sequence + 1)] } : St σ) =
      { commit_push ([] : Txn σ) st with
        log := (commit_push ([] : Txn σ) st).log ++
          [Ev.apply_txn (st.committed_sequence + 1)],
        committed_queue := st.committed_queue,
        freed := st.freed ++ [st.committed_sequence + 1] } := by
    unfold meta_wayland_transaction_free
    rw [hnd]
    simp only [if_pos]
    have hq : (({ commit_push ([] : Txn σ) st with
        log := (commit_push ([] : Txn σ) st).log ++
          [Ev.apply_txn (st.committed_sequence + 1)] } : St σ).committed_queue).erase
          (st.committed_sequence + 1) = st.committed_queue := by
      show ((st.committed_queue ++ [st.committed_sequence + 1]).erase
        (st.committed_sequence + 1)) = st.committed_queue
      rw [List.erase_append_right _ hnotmem, List.erase_cons_head]
      simp
    rw [hq]
    rfl
  have hcommit : meta_wayland_transaction_commit ([] : Txn σ) (fuel + 1) st =
      { commit_push ([] : Txn σ) st with
        log := (commit_push ([] : Txn σ) st).log ++
          [Ev.apply_txn (st.committed_sequence + 1)],
        committed_queue := st.committed_queue,
        freed := st.freed ++ [st.committed_sequence + 1] } := by
    unfold meta_wayland_transaction_commit
    rw [hinv]
    simp only [if_pos]
    rw [hreg]
    show meta_wayland_transaction_maybe_apply (fuel + 1) (st.committed_sequence + 1) []
      (commit_push ([] : Txn σ) st) = _
    unfold meta_wayland_transaction_maybe_apply
    rw [hone]
    exact hfree
  rw [hcommit]
  exact ⟨hinv, rfl, rfl, rfl, rfl, rfl⟩

/-- Closed instance of c9_empty_commit_applies_immediately at
sample_claimed_state. -/
theorem c9_empty_commit_applies_immediately_witness :
    (∀ x ∈ sample_claimed_state.committed_queue,
      x ≤ sample_claimed_state.committed_sequence) ∧
    (commit_invokes_engine ([] : Txn Unit) sample_claimed_state = true ∧
     (meta_wayland_transaction_commit [] (2 + 1) sample_claimed_state).committed_queue =
       sample_claimed_state.committed_queue ∧
     (meta_wayland_transaction_commit [] (2 + 1) sample_claimed_state).log =
       sample_claimed_state.log ++
         [Ev.apply_txn (sample_claimed_state.committed_sequence + 1)] ∧
     (meta_wayland_transaction_commit [] (2 + 1) sample_claimed_state).freed =
       sample_claimed_state.freed ++ [sample_claimed_state.committed_sequence + 1] ∧
     (meta_wayland_transaction_commit [] (2 + 1) sample_claimed_state).first_committed =
       sample_claimed_state.first_committed ∧
     (meta_wayland_transaction_commit [] (2 + 1) sample_claimed_state).last_committed =
       sample_claimed_state.last_committed) :=
  ⟨by decide, c9_empty_commit_applies_immediately 2 sample_claimed_state (by decide)⟩

/-! Helper lemmas for the commit/apply/cascade invariant. -/

theorem applied_ids_log {σ : Type} (st1 st2 : St σ) (h : st1.log = st2.log) :
    applied_ids st1 = applied_ids st2 := by
  unfold applied_ids
  rw [h]

theorem filterMap_no_apply_txn {ev : List Ev} (h : ∀ x, Ev.apply_txn x ∉ ev) :
    (ev.filterMap (fun e => match e with
      | Ev.apply_txn t => some t
      | _ => none)) = [] := by
  induction ev with
  | nil => rfl
  | cons e rest ih =>
    cases e with
    | apply_txn t => exact absurd (List.mem_cons_self _ rest) (h t)
    | apply_state t s =>
      simp only [List.filterMap_cons]
      exact ih (fun x hx => h x (List.mem_cons_of_mem _ hx))
    | sync_child s =>
      simp only [List.filterMap_cons]
      exact ih (fun x hx => h x (List.mem_cons_of_mem _ hx))

theorem get_entry_isSome_of_mem_keys {σ : Type} :
    ∀ (t : Txn σ) (s : Nat), s ∈ t.map (·.1) → (get_entry t s).isSome := by
  intro t
  induction t with
  | nil =>
    intro s h
    simp at h
  | cons p rest ih =>
    intro s h
    by_cases hps : p.1 = s
    · rw [get_entry_cons_eq p rest s hps]
      rfl
    · rw [get_entry_cons_ne p rest s hps]
      apply ih
      simp only [List.map_cons, List.mem_cons] at h
      rcases h with h | h
      · exact absurd h.symm hps
      · exact h

theorem sort_insert_perm (parent : Nat → Option Nat) (fuel : Nat) (s : Nat) :
    ∀ (l : List Nat), (sort_insert parent fuel s l).Perm (s :: l) := by
  intro l
  induction l with
  | nil => exact List.Perm.refl _
  | cons a rest ih =>
    unfold sort_insert
    split
    · exact (List.Perm.cons a ih).trans (List.Perm.swap s a rest)
    · exact List.Perm.refl _

theorem sort_surfaces_perm (parent : Nat → Option Nat) (fuel : Nat) :
    ∀ (l : List Nat), (sort_surfaces parent fuel l).Perm l := by
  intro l
  induction l with
  | nil => exact List.Perm.refl _
  | cons a rest ih =>
    unfold sort_surfaces
    exact (sort_insert_perm parent fuel a _).trans (List.Perm.cons a ih)

theorem suffix_after_append {cur : Nat} :
    ∀ (pre suf : List Nat), cur ∉ pre →
      suffix_after cur (pre ++ cur :: suf) = suf := by
  intro pre
  induction pre with
  | nil =>
    intro suf _
    simp [suffix_after]
  | cons x rest ih =>
    intro suf h
    have hx : x ≠ cur := fun hx => h (hx ▸ List.mem_cons_self x rest)
    have hrest : cur ∉ rest := fun hm => h (List.mem_cons_of_mem x hm)
    show suffix_after cur (x :: (rest ++ cur :: suf)) = suf
    unfold suffix_after
    rw [if_neg (by simpa using hx)]
    exact ih suf hrest

theorem find_eq_head_filter {α : Type} (p : α → Bool) :
    ∀ (l : List α), l.find? p = (l.filter p).head? := by
  intro l
  induction l with
  | nil => rfl
  | cons a rest ih =>
    by_cases hp : p a
    · rw [List.find?_cons_of_pos _ hp, List.filter_cons_of_pos hp]
      rfl
    · rw [List.find?_cons_of_neg _ (by simpa using hp),
        List.filter_cons_of_neg (by simpa using hp), ih]

theorem find_congr {α : Type} {p q : α → Bool} :
    ∀ {l : List α}, (∀ x ∈ l, p x = q x) → l.find? p = l.find? q := by
  intro l
  induction l with
  | nil => intro _; rfl
  | cons a rest ih =>
    intro h
    have ha := h a (List.mem_cons_self a rest)
    by_cases hp : p a
    · rw [List.find?_cons_of_pos _ hp, List.find?_cons_of_pos _ (ha ▸ hp)]
    · rw [List.find?_cons_of_neg _ (by simpa using hp),
        List.find?_cons_of_neg _ (by rw [← ha]; simpa using hp)]
      exact ih (fun x hx => h x (List.mem_cons_of_mem a hx))

/-- Value of a surface's first_committed after the commit-chain advance in
meta_wayland_transaction_apply, as a function of the pre-apply state. -/
def new_first {σ : Type} (st : St σ) (cur s : Nat) : Option Nat :=
  if st.last_committed s = some cur then none
  else
    match find_next_transaction_for_surface st cur s with
    | some nxt => some nxt
    | none => st.first_committed s

/-- Value of a surface's last_committed after the commit-chain advance in
meta_wayland_transaction_apply, as a function of the pre-apply state. -/
def new_last {σ : Type} (st : St σ) (cur s : Nat) : Option Nat :=
  if st.last_committed s = some cur then none else st.last_committed s

theorem find_next_congr {σ : Type} {st1 st2 : St σ} (cur s : Nat)
    (hq : st1.committed_queue = st2.committed_queue)
    (hl : st1.last_committed s = st2.last_committed s)
    (he : st1.entries = st2.entries) :
    find_next_transaction_for_surface st1 cur s =
      find_next_transaction_for_surface st2 cur s := by
  unfold find_next_transaction_for_surface
  rw [hq]
  apply find_congr
  intro x hx
  unfold surfaces_of
  rw [hl, he]

theorem new_first_congr {σ : Type} {st1 st2 : St σ} (cur s : Nat)
    (hq : st1.committed_queue = st2.committed_queue)
    (hl : st1.last_committed s = st2.last_committed s)
    (hf : st1.first_committed s = st2.first_committed s)
    (he : st1.entries = st2.entries) :
    new_first st1 cur s = new_first st2 cur s := by
  unfold new_first
  rw [hl, hf, find_next_congr cur s hq hl he]

theorem new_last_congr {σ : Type} {st1 st2 : St σ} (cur s : Nat)
    (hl : st1.last_committed s = st2.last_committed s) :
    new_last st1 cur s = new_last st2 cur s := by
  unfold new_last
  rw [hl]

theorem apply_pos_effect_fields {σ : Type} (s : Nat) (e : TEntry σ) (st : St σ) :
    (apply_pos_effect s e st).committed_queue = st.committed_queue ∧
    (apply_pos_effect s e st).entries = st.entries ∧
    (apply_pos_effect s e st).first_committed = st.first_committed ∧
    (apply_pos_effect s e st).last_committed = st.last_committed ∧
    (apply_pos_effect s e st).node_data = st.node_data ∧
    (apply_pos_effect s e st).committed_sequence = st.committed_sequence ∧
    (apply_pos_effect s e st).parent = st.parent ∧
    (apply_pos_effect s e st).pfuel = st.pfuel ∧
    (apply_pos_effect s e st).freed = st.freed ∧
    (apply_pos_effect s e st).log = st.log := by
  unfold apply_pos_effect
  split <;> exact ⟨rfl, rfl, rfl, rfl, rfl, rfl, rfl, rfl, rfl, rfl⟩

theorem apply_state_effect_fields {σ : Type} (cur s : Nat) (e : TEntry σ) (st : St σ) :
    (apply_state_effect cur s e st).committed_queue = st.committed_queue ∧
    (apply_state_effect cur s e st).entries = st.entries ∧
    (apply_state_effect cur s e st).first_committed = st.first_committed ∧
    (apply_state_effect cur s e st).last_committed = st.last_committed ∧
    (apply_state_effect cur s e st).node_data = st.node_data ∧
    (apply_state_effect cur s e st).committed_sequence = st.committed_sequence ∧
    (apply_state_effect cur s e st).parent = st.parent ∧
    (apply_state_effect cur s e st).pfuel = st.pfuel ∧
    (apply_state_effect cur s e st).freed = st.freed ∧
    (∃ ev, (apply_state_effect cur s e st).log = st.log ++ ev ∧
      ∀ x, Ev.apply_txn x ∉ ev) := by
  unfold apply_state_effect
  split
  · refine ⟨rfl, rfl, rfl, rfl, rfl, rfl, rfl, rfl, rfl, [Ev.apply_state cur s], rfl, ?_⟩
    intro x hx
    simp at hx
  · exact ⟨rfl, rfl, rfl, rfl, rfl, rfl, rfl, rfl, rfl, [], by simp, by simp⟩

theorem advance_chain_spec {σ : Type} (cur s : Nat) (acc : St σ × List Nat) :
    (advance_chain cur s acc).1.committed_queue = acc.1.committed_queue ∧
    (advance_chain cur s acc).1.entries = acc.1.entries ∧
    (advance_chain cur s acc).1.node_data = acc.1.node_data ∧
    (advance_chain cur s acc).1.committed_sequence = acc.1.committed_sequence ∧
    (advance_chain cur s acc).1.parent = acc.1.parent ∧
    (advance_chain cur s acc).1.pfuel = acc.1.pfuel ∧
    (advance_chain cur s acc).1.freed = acc.1.freed ∧
    (advance_chain cur s acc).1.log = acc.1.log ∧
    (∀ n, (advance_chain cur s acc).1.first_committed n =
      if n = s then new_first acc.1 cur s else acc.1.first_committed n) ∧
    (∀ n, (advance_chain cur s acc).1.last_committed n =
      if n = s then new_last acc.1 cur s else acc.1.last_committed n) ∧
    (acc.2.Pairwise (· < ·) → (advance_chain cur s acc).2.Pairwise (· < ·)) ∧
    (∀ c ∈ (advance_chain cur s acc).2,
      c ∈ acc.2 ∨ c ∈ suffix_after cur acc.1.committed_queue) := by
  unfold advance_chain
  by_cases hlast : acc.1.last_committed s = some cur
  · rw [if_pos hlast]
    refine ⟨rfl, rfl, rfl, rfl, rfl, rfl, rfl, rfl, ?_, ?_, fun h => h, fun c hc => Or.inl hc⟩
    · intro n
      by_cases hns : n = s <;> simp [new_first, hlast, hns]
    · intro n
      by_cases hns : n = s <;> simp [new_last, hlast, hns]
  · rw [if_neg hlast]
    cases hfind : find_next_transaction_for_surface acc.1 cur s with
    | none =>
      refine ⟨rfl, rfl, rfl, rfl, rfl, rfl, rfl, rfl, ?_, ?_, fun h => h, fun c hc => Or.inl hc⟩
      · intro n
        by_cases hns : n = s <;> simp [new_first, hlast, hfind, hns]
      · intro n
        by_cases hns : n = s <;> simp [new_last, hlast, hns]
    | some nxt =>
      have hmem : nxt ∈ suffix_after cur acc.1.committed_queue :=
        List.mem_of_find?_eq_some hfind
      refine ⟨rfl, rfl, rfl, rfl, rfl, rfl, rfl, rfl, ?_, ?_, ?_, ?_⟩
      · intro n
        by_cases hns : n = s <;> simp [new_first, hlast, hfind, hns]
      · intro n
        by_cases hns : n = s <;> simp [new_last, hlast, hns]
      · intro hs
        show (ensure_next_candidate nxt acc.2).Pairwise (· < ·)
        unfold ensure_next_candidate
        split
        · exact hs
        · rename_i hnm
          exact pairwise_candidate_insert hs hnm
      · intro c hc
        have hc2 : c ∈ ensure_next_candidate nxt acc.2 := hc
        unfold ensure_next_candidate at hc2
        split at hc2
        · exact Or.inl hc2
        · rcases mem_candidate_insert.mp hc2 with rfl | hc3
          · exact Or.inr hmem
          · exact Or.inl hc3

theorem apply_surface_spec {σ : Type} (cur : Nat) (acc : St σ × List Nat) (s : Nat)
    (hsome : (get_entry (acc.1.entries cur) s).isSome) :
    (apply_surface cur acc s).1.committed_queue = acc.1.committed_queue ∧
    (apply_surface cur acc s).1.entries = acc.1.entries ∧
    (apply_surface cur acc s).1.node_data = acc.1.node_data ∧
    (apply_surface cur acc s).1.committed_sequence = acc.1.committed_sequence ∧
    (apply_surface cur acc s).1.parent = acc.1.parent ∧
    (apply_surface cur acc s).1.pfuel = acc.1.pfuel ∧
    (apply_surface cur acc s).1.freed = acc.1.freed ∧
    (∃ ev, (apply_surface cur acc s).1.log = acc.1.log ++ ev ∧
      ∀ x, Ev.apply_txn x ∉ ev) ∧
    (∀ n, (apply_surface cur acc s).1.first_committed n =
      if n = s then new_first acc.1 cur s else acc.1.first_committed n) ∧
    (∀ n, (apply_surface cur acc s).1.last_committed n =
      if n = s then new_last acc.1 cur s else acc.1.last_committed n) ∧
    (acc.2.Pairwise (· < ·) → (apply_surface cur acc s).2.Pairwise (· < ·)) ∧
    (∀ c ∈ (apply_surface cur acc s).2,
      c ∈ acc.2 ∨ c ∈ suffix_after cur acc.1.committed_queue) := by
  obtain ⟨e, hge⟩ := Option.isSome_iff_exists.mp hsome
  have hres : apply_surface cur acc s =
      advance_chain cur s
        (apply_state_effect cur s e (apply_pos_effect s e acc.1), acc.2) := by
    unfold apply_surface
    rw [hge]
  obtain ⟨p1, p2, p3, p4, p5, p6, p7, p8, p9, p10⟩ := apply_pos_effect_fields s e acc.1
  obtain ⟨q1, q2, q3, q4, q5, q6, q7, q8, q9, ev, hev, hnoap⟩ :=
    apply_state_effect_fields cur s e (apply_pos_effect s e acc.1)
  obtain ⟨a1, a2, a3, a4, a5, a6, a7, a8, a9, a10, a11, a12⟩ :=
    advance_chain_spec cur s
      (apply_state_effect cur s e (apply_pos_effect s e acc.1), acc.2)
  have hq : (apply_state_effect cur s e (apply_pos_effect s e acc.1)).committed_queue =
      acc.1.committed_queue := q1.trans p1
  have he : (apply_state_effect cur s e (apply_pos_effect s e acc.1)).entries =
      acc.1.entries := q2.trans p2
  have hfirstf : (apply_state_effect cur s e (apply_pos_effect s e acc.1)).first_committed =
      acc.1.first_committed := q3.trans p3
  have hlastf : (apply_state_effect cur s e (apply_pos_effect s e acc.1)).last_committed =
      acc.1.last_committed := q4.trans p4
  have hnf : new_first (apply_state_effect cur s e (apply_pos_effect s e acc.1)) cur s =
      new_first acc.1 cur s :=
    new_first_congr cur s hq (congrFun hlastf s) (congrFun hfirstf s) he
  have hnl : new_last (apply_state_effect cur s e (apply_pos_effect s e acc.1)) cur s =
      new_last acc.1 cur s :=
    new_last_congr cur s (congrFun hlastf s)
  rw [hres]
  refine ⟨a1.trans hq, a2.trans he, a3.trans (q5.trans p5), a4.trans (q6.trans p6),
    a5.trans (q7.trans p7), a6.trans (q8.trans p8), a7.trans (q9.trans p9),
    ⟨ev, a8.trans (hev.trans (by rw [p10])), hnoap⟩, ?_, ?_, a11, ?_⟩
  · intro n
    rw [a9 n, congrFun hfirstf n, hnf]
  · intro n
    rw [a10 n, congrFun hlastf n, hnl]
  · intro c hc
    rcases a12 c hc with h | h
    · exact Or.inl h
    · rw [hq] at h
      exact Or.inr h

theorem apply_fold_spec {σ : Type} (cur : Nat) :
    ∀ (L : List Nat) (acc : St σ × List Nat), L.Nodup →
      (∀ s ∈ L, (get_entry (acc.1.entries cur) s).isSome) →
      (L.foldl (apply_surface cur) acc).1.committed_queue = acc.1.committed_queue ∧
      (L.foldl (apply_surface cur) acc).1.entries = acc.1.entries ∧
      (L.foldl (apply_surface cur) acc).1.node_data = acc.1.node_data ∧
      (L.foldl (apply_surface cur) acc).1.committed_sequence = acc.1.committed_sequence ∧
      (L.foldl (apply_surface cur) acc).1.parent = acc.1.parent ∧
      (L.foldl (apply_surface cur) acc).1.pfuel = acc.1.pfuel ∧
      (L.foldl (apply_surface cur) acc).1.freed = acc.1.freed ∧
      (∃ ev, (L.foldl (apply_surface cur) acc).1.log = acc.1.log ++ ev ∧
        ∀ x, Ev.apply_txn x ∉ ev) ∧
      (∀ n, (L.foldl (apply_surface cur) acc).1.first_committed n =
        if n ∈ L then new_first acc.1 cur n else acc.1.first_committed n) ∧
      (∀ n, (L.foldl (apply_surface cur) acc).1.last_committed n =
        if n ∈ L then new_last acc.1 cur n else acc.1.last_committed n) ∧
      (acc.2.Pairwise (· < ·) → (L.foldl (apply_surface cur) acc).2.Pairwise (· < ·)) ∧
      (∀ c ∈ (L.foldl (apply_surface cur) acc).2,
        c ∈ acc.2 ∨ c ∈ suffix_after cur acc.1.committed_queue) := by
  intro L
  induction L with
  | nil =>
    intro acc _ _
    refine ⟨rfl, rfl, rfl, rfl, rfl, rfl, rfl, ⟨[], by simp, by simp⟩, ?_, ?_,
      fun h => h, fun c hc => Or.inl hc⟩
    · intro n
      simp
    · intro n
      simp
  | cons a R ih =>
    intro acc hnd hsome
    have hna : a ∉ R := (List.nodup_cons.mp hnd).1
    have hndr : R.Nodup := (List.nodup_cons.mp hnd).2
    obtain ⟨s1, s2, s3, s4, s5, s6, s7, ⟨ev1, hsl, hsnoap⟩, s9, s10, s11, s12⟩ :=
      apply_surface_spec cur acc a (hsome a (List.mem_cons_self a R))
    have hsome2 : ∀ s ∈ R, (get_entry ((apply_surface cur acc a).1.entries cur) s).isSome := by
      intro s hs
      rw [s2]
      exact hsome s (List.mem_cons_of_mem a hs)
    obtain ⟨i1, i2, i3, i4, i5, i6, i7, ⟨ev2, hil, hinoap⟩, i9, i10, i11, i12⟩ :=
      ih (apply_surface cur acc a) hndr hsome2
    rw [List.foldl_cons]
    refine ⟨i1.trans s1, i2.trans s2, i3.trans s3, i4.trans s4, i5.trans s5,
      i6.trans s6, i7.trans s7,
      ⟨ev1 ++ ev2, by rw [hil, hsl, List.append_assoc], ?_⟩, ?_, ?_, ?_, ?_⟩
    · intro x hx
      rcases List.mem_append.mp hx with h | h
      · exact hsnoap x h
      · exact hinoap x h
    · intro n
      rw [i9 n]
      by_cases hnr : n ∈ R
      · have hnna : n ≠ a := fun h => hna (h ▸ hnr)
        rw [if_pos hnr, if_pos (List.mem_cons_of_mem a hnr)]
        exact new_first_congr cur n s1
          (by rw [s10 n, if_neg hnna])
          (by rw [s9 n, if_neg hnna]) s2
      · rw [if_neg hnr, s9 n]
        by_cases hnna : n = a
        · subst hnna
          rw [if_pos rfl, if_pos (List.mem_cons_self n R)]
        · rw [if_neg hnna, if_neg (by simp [hnna, hnr])]
    · intro n
      rw [i10 n]
      by_cases hnr : n ∈ R
      · have hnna : n ≠ a := fun h => hna (h ▸ hnr)
        rw [if_pos hnr, if_pos (List.mem_cons_of_mem a hnr)]
        exact new_last_congr cur n (by rw [s10 n, if_neg hnna])
      · rw [if_neg hnr, s10 n]
        by_cases hnna : n = a
        · subst hnna
          rw [if_pos rfl, if_pos (List.mem_cons_self n R)]
        · rw [if_neg hnna, if_neg (by simp [hnna, hnr])]
    · intro hpair
      exact i11 (s11 hpair)
    · intro c hc
      rcases i12 c hc with h | h
      · rcases s12 c h with h2 | h2
        · exact Or.inl h2
        · exact Or.inr h2
      · rw [s1] at h
        exact Or.inr h

theorem mem_of_getLast_eq_some {α : Type} :
    ∀ {l : List α} {a : α}, l.getLast? = some a → a ∈ l := by
  intro l
  induction l with
  | nil =>
    intro a h
    simp at h
  | cons x rest ih =>
    intro a h
    cases rest with
    | nil =>
      have : x = a := by simpa using h
      rw [this]
      exact List.mem_cons_self a []
    | cons y ys =>
      rw [List.getLast?_cons_cons] at h
      exact List.mem_cons_of_mem x (ih h)

theorem erase_filter_of_not_pred {P : Nat → Bool} {c : Nat} (hc : P c = false) :
    ∀ (l : List Nat), (l.erase c).filter P = l.filter P := by
  intro l
  induction l with
  | nil => rfl
  | cons x rest ih =>
    by_cases hxc : x = c
    · subst hxc
      rw [List.erase_cons_head, List.filter_cons_of_neg (by simp [hc])]
    · rw [List.erase_cons_tail (by simpa using hxc)]
      by_cases hPx : P x
      · rw [List.filter_cons_of_pos hPx, List.filter_cons_of_pos hPx, ih]
      · rw [List.filter_cons_of_neg (by simpa using hPx),
          List.filter_cons_of_neg (by simpa using hPx), ih]

theorem ready_new_first_last {σ : Type} (st : St σ) (cur s : Nat)
    (hnodup : st.committed_queue.Nodup)
    (hfirst : st.first_committed s =
      (st.committed_queue.filter (fun t => decide (s ∈ surfaces_of st t))).head?)
    (hlast : st.last_committed s =
      (st.committed_queue.filter (fun t => decide (s ∈ surfaces_of st t))).getLast?)
    (hcur : cur ∈ st.committed_queue)
    (hscur : s ∈ surfaces_of st cur)
    (hready : st.first_committed s = some cur) :
    new_first st cur s =
      ((st.committed_queue.erase cur).filter
        (fun t => decide (s ∈ surfaces_of st t))).head? ∧
    new_last st cur s =
      ((st.committed_queue.erase cur).filter
        (fun t => decide (s ∈ surfaces_of st t))).getLast? := by
  obtain ⟨pre, suf, hsplit⟩ := List.append_of_mem hcur
  have hnodup2 := hsplit ▸ hnodup
  have hmid := List.nodup_middle.mp hnodup2
  have hcurpre : cur ∉ pre := fun h =>
    (List.nodup_cons.mp hmid).1 (List.mem_append.mpr (Or.inl h))
  have hcursuf : cur ∉ suf := fun h =>
    (List.nodup_cons.mp hmid).1 (List.mem_append.mpr (Or.inr h))
  have hfq : st.committed_queue.filter (fun t => decide (s ∈ surfaces_of st t)) =
      pre.filter (fun t => decide (s ∈ surfaces_of st t)) ++
        cur :: suf.filter (fun t => decide (s ∈ surfaces_of st t)) := by
    rw [hsplit, List.filter_append]
    congr 1
    simp [hscur]
  have hhead : (st.committed_queue.filter
      (fun t => decide (s ∈ surfaces_of st t))).head? = some cur :=
    hfirst.symm.trans hready
  have hprefilter : pre.filter (fun t => decide (s ∈ surfaces_of st t)) = [] := by
    cases hfp : pre.filter (fun t => decide (s ∈ surfaces_of st t)) with
    | nil => rfl
    | cons x xs =>
      have hxpre : x ∈ pre := by
        have hx : x ∈ pre.filter (fun t => decide (s ∈ surfaces_of st t)) := by
          rw [hfp]
          exact List.mem_cons_self x xs
        exact (List.mem_filter.mp hx).1
      rw [hfq, hfp] at hhead
      simp at hhead
      exact absurd (hhead ▸ hxpre) hcurpre
  have herase : st.committed_queue.erase cur = pre ++ suf := by
    rw [hsplit, List.erase_append_right _ hcurpre, List.erase_cons_head]
  have herasefilter : (st.committed_queue.erase cur).filter
      (fun t => decide (s ∈ surfaces_of st t)) =
      suf.filter (fun t => decide (s ∈ surfaces_of st t)) := by
    rw [herase, List.filter_append, hprefilter]
    rfl
  by_cases hlastcur : st.last_committed s = some cur
  · have hgl : (st.committed_queue.filter
        (fun t => decide (s ∈ surfaces_of st t))).getLast? = some cur :=
      hlast.symm.trans hlastcur
    have hsuffilter : suf.filter (fun t => decide (s ∈ surfaces_of st t)) = [] := by
      cases hfs : suf.filter (fun t => decide (s ∈ surfaces_of st t)) with
      | nil => rfl
      | cons y ys =>
        rw [hfq, hprefilter, hfs] at hgl
        simp only [List.nil_append, List.getLast?_cons_cons] at hgl
        have hmem : cur ∈ y :: ys := mem_of_getLast_eq_some hgl
        have : cur ∈ suf := by
          have : cur ∈ suf.filter (fun t => decide (s ∈ surfaces_of st t)) := by
            rw [hfs]
            exact hmem
          exact (List.mem_filter.mp this).1
        exact absurd this hcursuf
    constructor
    · unfold new_first
      rw [if_pos hlastcur, herasefilter, hsuffilter]
      rfl
    · unfold new_last
      rw [if_pos hlastcur, herasefilter, hsuffilter]
      rfl
  · have hne : suf.filter (fun t => decide (s ∈ surfaces_of st t)) ≠ [] := by
      intro h0
      apply hlastcur
      rw [hlast, hfq, hprefilter, h0]
      rfl
    have hlast2 : st.last_committed s =
        (suf.filter (fun t => decide (s ∈ surfaces_of st t))).getLast? := by
      rw [hlast, hfq, hprefilter]
      simp only [List.nil_append]
      cases hfs : suf.filter (fun t => decide (s ∈ surfaces_of st t)) with
      | nil => exact absurd hfs hne
      | cons y ys => rw [List.getLast?_cons_cons]
    obtain ⟨l, hl⟩ : ∃ l, (suf.filter
        (fun t => decide (s ∈ surfaces_of st t))).getLast? = some l := by
      have := List.getLast?_isSome.mpr hne
      exact Option.isSome_iff_exists.mp this
    have hlmem : l ∈ suf.filter (fun t => decide (s ∈ surfaces_of st t)) :=
      mem_of_getLast_eq_some hl
    have hPl : decide (s ∈ surfaces_of st l) = true := (List.mem_filter.mp hlmem).2
    have hsuffix : suffix_after cur st.committed_queue = suf := by
      rw [hsplit]
      exact suffix_after_append pre suf hcurpre
    have hfind : find_next_transaction_for_surface st cur s =
        (suf.filter (fun t => decide (s ∈ surfaces_of st t))).head? := by
      unfold find_next_transaction_for_surface
      rw [hsuffix]
      rw [find_congr (q := fun t => decide (s ∈ surfaces_of st t)) ?_,
        find_eq_head_filter]
      intro x hx
      by_cases hPx : decide (s ∈ surfaces_of st x) = true
      · simp [hPx]
      · have hnex : st.last_committed s ≠ some x := by
          rw [hlast2, hl]
          intro hcontra
          have hlx : l = x := by
            injection hcontra
          rw [hlx] at hPl
          exact hPx hPl
        have : (st.last_committed s == some x) = false := by
          simpa using hnex
        rw [this]
        simp only [Bool.false_or]
    constructor
    · unfold new_first
      rw [if_neg hlastcur, hfind, herasefilter]
      cases hfs : suf.filter (fun t => decide (s ∈ surfaces_of st t)) with
      | nil => exact absurd hfs hne
      | cons y ys => rfl
    · unfold new_last
      rw [if_neg hlastcur, herasefilter, ← hlast2]

theorem sync_fold_frame {σ : Type} (cur : Nat) :
    ∀ (L : List Nat) (st : St σ),
      (L.foldl (sync_step cur) st).committed_queue = st.committed_queue ∧
      (L.foldl (sync_step cur) st).entries = st.entries ∧
      (L.foldl (sync_step cur) st).node_data = st.node_data ∧
      (L.foldl (sync_step cur) st).committed_sequence = st.committed_sequence ∧
      (L.foldl (sync_step cur) st).parent = st.parent ∧
      (L.foldl (sync_step cur) st).pfuel = st.pfuel ∧
      (L.foldl (sync_step cur) st).freed = st.freed ∧
      (L.foldl (sync_step cur) st).first_committed = st.first_committed ∧
      (L.foldl (sync_step cur) st).last_committed = st.last_committed ∧
      (∃ ev, (L.foldl (sync_step cur) st).log = st.log ++ ev ∧
        ∀ x, Ev.apply_txn x ∉ ev) := by
  intro L
  induction L with
  | nil =>
    intro st
    exact ⟨rfl, rfl, rfl, rfl, rfl, rfl, rfl, rfl, rfl, [], by simp, by simp⟩
  | cons a R ih =>
    intro st
    have hstep : (sync_step cur st a).committed_queue = st.committed_queue ∧
        (sync_step cur st a).entries = st.entries ∧
        (sync_step cur st a).node_data = st.node_data ∧
        (sync_step cur st a).committed_sequence = st.committed_sequence ∧
        (sync_step cur st a).parent = st.parent ∧
        (sync_step cur st a).pfuel = st.pfuel ∧
        (sync_step cur st a).freed = st.freed ∧
        (sync_step cur st a).first_committed = st.first_committed ∧
        (sync_step cur st a).last_committed = st.last_committed ∧
        (∃ ev, (sync_step cur st a).log = st.log ++ ev ∧
          ∀ x, Ev.apply_txn x ∉ ev) := by
      unfold sync_step
      split
      · refine ⟨rfl, rfl, rfl, rfl, rfl, rfl, rfl, rfl, rfl, [Ev.sync_child a], rfl, ?_⟩
        intro x hx
        simp at hx
      · exact ⟨rfl, rfl, rfl, rfl, rfl, rfl, rfl, rfl, rfl, [], by simp, by simp⟩
    obtain ⟨s1, s2, s3, s4, s5, s6, s7, s8, s9, ev1, hsl, hsnoap⟩ := hstep
    obtain ⟨i1, i2, i3, i4, i5, i6, i7, i8, i9, ev2, hil, hinoap⟩ := ih (sync_step cur st a)
    rw [List.foldl_cons]
    refine ⟨i1.trans s1, i2.trans s2, i3.trans s3, i4.trans s4, i5.trans s5,
      i6.trans s6, i7.trans s7, i8.trans s8, i9.trans s9,
      ev1 ++ ev2, by rw [hil, hsl, List.append_assoc], ?_⟩
    intro x hx
    rcases List.mem_append.mp hx with h | h
    · exact hsnoap x h
    · exact hinoap x h

theorem apply_decomp {σ : Type} (cur : Nat) (chain : List Nat) (st : St σ) :
    meta_wayland_transaction_apply cur chain st =
      (meta_wayland_transaction_free cur
        ((sort_surfaces st.parent st.pfuel (surfaces_of st cur)).reverse.foldl
          (sync_step cur)
          ((sort_surfaces st.parent st.pfuel (surfaces_of st cur)).foldl
            (apply_surface cur)
            ({ st with log := st.log ++ [Ev.apply_txn cur] }, chain)).1),
       ((sort_surfaces st.parent st.pfuel (surfaces_of st cur)).foldl
         (apply_surface cur)
         ({ st with log := st.log ++ [Ev.apply_txn cur] }, chain)).2) := rfl

theorem head_filter_lt {P : Nat → Bool} {q : List Nat} {cur t2 : Nat}
    (hsorted : q.Pairwise (· < ·))
    (hhead : (q.filter P).head? = some cur)
    (ht2 : t2 ∈ q) (hPt2 : P t2 = true) (hne : t2 ≠ cur) : cur < t2 := by
  have hfp : (q.filter P).Pairwise (· < ·) :=
    List.Pairwise.sublist (List.filter_sublist q) hsorted
  have ht2f : t2 ∈ q.filter P := List.mem_filter.mpr ⟨ht2, hPt2⟩
  cases hqf : q.filter P with
  | nil =>
    rw [hqf] at ht2f
    simp at ht2f
  | cons h rest =>
    rw [hqf] at hhead hfp ht2f
    have hhc : h = cur := by simpa using hhead
    rcases List.mem_cons.mp ht2f with rfl | hmem
    · exact absurd hhc hne
    · exact hhc ▸ (List.pairwise_cons.mp hfp).1 t2 hmem

theorem apply_preserves_inv {σ : Type} (cur : Nat) (chain : List Nat) (st : St σ)
    (hinv : EngInv st) (hq : cur ∈ st.committed_queue)
    (hready : ∀ s ∈ surfaces_of st cur, st.first_committed s = some cur)
    (hcp : chain.Pairwise (· < ·))
    (hcm : ∀ c ∈ chain, c ∈ st.committed_queue)
    (hcc : cur ∉ chain) :
    EngInv (meta_wayland_transaction_apply cur chain st).1 ∧
    (meta_wayland_transaction_apply cur chain st).1.committed_queue =
      st.committed_queue.erase cur ∧
    applied_ids (meta_wayland_transaction_apply cur chain st).1 =
      applied_ids st ++ [cur] ∧
    ((meta_wayland_transaction_apply cur chain st).2.Pairwise (· < ·)) ∧
    (∀ c ∈ (meta_wayland_transaction_apply cur chain st).2,
      c ∈ (meta_wayland_transaction_apply cur chain st).1.committed_queue) ∧
    cur ∉ (meta_wayland_transaction_apply cur chain st).2 := by
  have hqnodup : st.committed_queue.Nodup :=
    hinv.qsorted.imp (fun h => Nat.ne_of_lt h)
  obtain ⟨pre, suf, hsplit⟩ := List.append_of_mem hq
  have hmid := List.nodup_middle.mp (hsplit ▸ hqnodup)
  have hcurpre : cur ∉ pre := fun h =>
    (List.nodup_cons.mp hmid).1 (List.mem_append.mpr (Or.inl h))
  have hcursuf : cur ∉ suf := fun h =>
    (List.nodup_cons.mp hmid).1 (List.mem_append.mpr (Or.inr h))
  have hsuffix : suffix_after cur st.committed_queue = suf := by
    rw [hsplit]
    exact suffix_after_append pre suf hcurpre
  have herase : st.committed_queue.erase cur = pre ++ suf := by
    rw [hsplit, List.erase_append_right _ hcurpre, List.erase_cons_head]
  have hperm := sort_surfaces_perm st.parent st.pfuel (surfaces_of st cur)
  have hsortnd : (sort_surfaces st.parent st.pfuel (surfaces_of st cur)).Nodup :=
    hperm.nodup_iff.mpr (hinv.keysnd cur)
  have hsortmem : ∀ n, (n ∈ sort_surfaces st.parent st.pfuel (surfaces_of st cur)) ↔
      n ∈ surfaces_of st cur := fun n => hperm.mem_iff
  have hsome : ∀ s ∈ sort_surfaces st.parent st.pfuel (surfaces_of st cur),
      (get_entry ((({ st with log := st.log ++ [Ev.apply_txn cur] } : St σ),
        chain).1.entries cur) s).isSome := by
    intro s hs
    exact get_entry_isSome_of_mem_keys (st.entries cur) s ((hsortmem s).mp hs)
  obtain ⟨f1, f2, f3, f4, f5, f6, f7, ⟨ev1, hev1, hnoap1⟩, f9, f10, f11, f12⟩ :=
    apply_fold_spec cur (sort_surfaces st.parent st.pfuel (surfaces_of st cur))
      (({ st with log := st.log ++ [Ev.apply_txn cur] } : St σ), chain) hsortnd hsome
  set R := (sort_surfaces st.parent st.pfuel (surfaces_of st cur)).foldl
    (apply_surface cur)
    (({ st with log := st.log ++ [Ev.apply_txn cur] } : St σ), chain) with hR
  obtain ⟨g1, g2, g3, g4, g5, g6, g7, g8, g9, ev2, hev2, hnoap2⟩ :=
    sync_fold_frame cur (sort_surfaces st.parent st.pfuel (surfaces_of st cur)).reverse R.1
  set S1 := (sort_surfaces st.parent st.pfuel (surfaces_of st cur)).reverse.foldl
    (sync_step cur) R.1 with hS1
  have hS1q : S1.committed_queue = st.committed_queue := g1.trans f1
  have hS1e : S1.entries = st.entries := g2.trans f2
  have hS1n : S1.node_data = st.node_data := g3.trans f3
  have hS1seq : S1.committed_sequence = st.committed_sequence := g4.trans f4
  have hS1fr : S1.freed = st.freed := g7.trans f7
  have hS1first : ∀ n, S1.first_committed n =
      if n ∈ sort_surfaces st.parent st.pfuel (surfaces_of st cur) then
        new_first st cur n
      else st.first_committed n := fun n => (congrFun g8 n).trans (f9 n)
  have hS1last : ∀ n, S1.last_committed n =
      if n ∈ sort_surfaces st.parent st.pfuel (surfaces_of st cur) then
        new_last st cur n
      else st.last_committed n := fun n => (congrFun g9 n).trans (f10 n)
  have hS1log : S1.log = ((st.log ++ [Ev.apply_txn cur]) ++ ev1) ++ ev2 := by
    rw [hev2, hev1]
  have hndcur : S1.node_data cur = true := by
    rw [hS1n]
    exact hinv.nodef cur hq
  have hfree : meta_wayland_transaction_free cur S1 =
      { S1 with committed_queue := S1.committed_queue.erase cur,
                freed := S1.freed ++ [cur] } := by
    unfold meta_wayland_transaction_free
    rw [hndcur]
    simp
  set F := meta_wayland_transaction_free cur S1 with hF
  have hFq : F.committed_queue = st.committed_queue.erase cur := by
    rw [hfree]
    show S1.committed_queue.erase cur = st.committed_queue.erase cur
    rw [hS1q]
  have hFe : F.entries = st.entries := by
    rw [hfree]
    show S1.entries = st.entries
    exact hS1e
  have hFn : F.node_data = st.node_data := by
    rw [hfree]
    show S1.node_data = st.node_data
    exact hS1n
  have hFseq : F.committed_sequence = st.committed_sequence := by
    rw [hfree]
    show S1.committed_sequence = st.committed_sequence
    exact hS1seq
  have hFfreed : F.freed = st.freed ++ [cur] := by
    rw [hfree]
    show S1.freed ++ [cur] = st.freed ++ [cur]
    rw [hS1fr]
  have hFlog : F.log = ((st.log ++ [Ev.apply_txn cur]) ++ ev1) ++ ev2 := by
    rw [hfree]
    show S1.log = ((st.log ++ [Ev.apply_txn cur]) ++ ev1) ++ ev2
    exact hS1log
  have hFfirst : ∀ n, F.first_committed n =
      if n ∈ sort_surfaces st.parent st.pfuel (surfaces_of st cur) then
        new_first st cur n
      else st.first_committed n := by
    intro n
    rw [hfree]
    show S1.first_committed n = _
    exact hS1first n
  have hFlast : ∀ n, F.last_committed n =
      if n ∈ sort_surfaces st.parent st.pfuel (surfaces_of st cur) then
        new_last st cur n
      else st.last_committed n := by
    intro n
    rw [hfree]
    show S1.last_committed n = _
    exact hS1last n
  have happlied : applied_ids F = applied_ids st ++ [cur] := by
    unfold applied_ids
    rw [hFlog, List.filterMap_append, List.filterMap_append, List.filterMap_append,
      filterMap_no_apply_txn hnoap1, filterMap_no_apply_txn hnoap2]
    simp
  have hsurfF : ∀ t, surfaces_of F t = surfaces_of st t := by
    intro t
    unfold surfaces_of
    rw [hFe]
  have hfiltF : ∀ (l : List Nat) (s : Nat),
      l.filter (fun t => decide (s ∈ surfaces_of F t)) =
      l.filter (fun t => decide (s ∈ surfaces_of st t)) := by
    intro l s
    apply List.filter_congr
    intro x hx
    rw [hsurfF x]
  have hmain : meta_wayland_transaction_apply cur chain st = (F, R.2) := by
    rw [apply_decomp cur chain st, ← hR, ← hS1, ← hF]
  rw [hmain]
  have hinvF : EngInv F := by
    refine ⟨⟨?_, ?_, ?_, ?_, ?_, ?_, ?_⟩, ?_, ?_, ?_, ?_⟩
    · rw [hFq]
      exact List.Pairwise.sublist (List.erase_sublist cur st.committed_queue) hinv.qsorted
    · intro t ht
      rw [hFq] at ht
      rw [hFseq]
      exact hinv.qbound t (List.mem_of_mem_erase ht)
    · intro t
      rw [hsurfF t]
      exact hinv.keysnd t
    · intro t hnd2
      rw [hFn] at hnd2
      rcases hinv.node t hnd2 with h | h
      · by_cases htc : t = cur
        · subst htc
          right
          rw [happlied]
          exact List.mem_append_right _ (List.mem_cons_self t [])
        · left
          rw [hFq]
          exact (hqnodup.mem_erase_iff).mpr ⟨htc, h⟩
      · right
        rw [happlied]
        exact List.mem_append_left _ h
    · intro t ht
      rw [hFq] at ht
      rw [hFn]
      exact hinv.nodef t (List.mem_of_mem_erase ht)
    · intro s
      rw [hFq, hfiltF, hFfirst s]
      by_cases hscur : s ∈ surfaces_of st cur
      · rw [if_pos ((hsortmem s).mpr hscur)]
        exact (ready_new_first_last st cur s hqnodup (hinv.first s) (hinv.last s)
          hq hscur (hready s hscur)).1
      · rw [if_neg (fun h => hscur ((hsortmem s).mp h))]
        rw [erase_filter_of_not_pred (by simp [hscur]) st.committed_queue]
        exact hinv.first s
    · intro s
      rw [hFq, hfiltF, hFlast s]
      by_cases hscur : s ∈ surfaces_of st cur
      · rw [if_pos ((hsortmem s).mpr hscur)]
        exact (ready_new_first_last st cur s hqnodup (hinv.first s) (hinv.last s)
          hq hscur (hready s hscur)).2
      · rw [if_neg (fun h => hscur ((hsortmem s).mp h))]
        rw [erase_filter_of_not_pred (by simp [hscur]) st.committed_queue]
        exact hinv.last s
    · intro t ht
      rw [happlied] at ht
      rw [hFseq]
      rcases List.mem_append.mp ht with h | h
      · exact hinv.abound t h
      · have : t = cur := by simpa using h
        subst this
        exact hinv.qbound t hq
    · intro t ht
      rw [hFq] at ht
      obtain ⟨hne2, hmem2⟩ := (hqnodup.mem_erase_iff).mp ht
      rw [happlied]
      intro hcontra
      rcases List.mem_append.mp hcontra with h | h
      · exact hinv.qa t hmem2 h
      · exact hne2 (by simpa using h)
    · intro s t1 t2 h1 h2 hs1 hs2
      rw [happlied] at h1
      rw [hFq] at h2
      rw [hsurfF t1] at hs1
      rw [hsurfF t2] at hs2
      obtain ⟨hne2, hmem2⟩ := (hqnodup.mem_erase_iff).mp h2
      rcases List.mem_append.mp h1 with h1 | h1
      · exact hinv.ord s t1 t2 h1 hmem2 hs1 hs2
      · have ht1cur : t1 = cur := by simpa using h1
        subst ht1cur
        have hheadcur : (st.committed_queue.filter
            (fun t => decide (s ∈ surfaces_of st t))).head? = some t1 :=
          (hinv.first s).symm.trans (hready s hs1)
        exact head_filter_lt hinv.qsorted hheadcur hmem2 (by simp [hs2]) hne2
    · intro s
      have hfc : (applied_ids F).filter (fun t => decide (s ∈ surfaces_of F t)) =
          (applied_ids st ++ [cur]).filter
            (fun t => decide (s ∈ surfaces_of st t)) := by
        rw [happlied]
        apply List.filter_congr
        intro x hx
        rw [hsurfF x]
      rw [hfc, List.filter_append]
      by_cases hscur : s ∈ surfaces_of st cur
      · rw [List.filter_cons_of_pos (by simp [hscur])]
        rw [List.pairwise_append]
        refine ⟨hinv.logs s, by simp, ?_⟩
        intro a ha b hb
        have hb2 : b = cur := by
          simp only [List.filter_nil] at hb
          simpa using hb
        subst hb2
        obtain ⟨hamem, haP⟩ := List.mem_filter.mp ha
        exact hinv.ord s a b hamem hq (by simpa using haP) hscur
      · rw [List.filter_cons_of_neg (by simp [hscur])]
        simp only [List.filter_nil, List.append_nil]
        exact hinv.logs s
  refine ⟨hinvF, hFq, happlied, f11 hcp, ?_, ?_⟩
  · intro c hc
    have hc2 : c ∈ R.2 := hc
    show c ∈ F.committed_queue
    rw [hFq]
    rcases f12 c hc2 with h | h
    · have hnec : c ≠ cur := fun he => hcc (he ▸ h)
      exact (hqnodup.mem_erase_iff).mpr ⟨hnec, hcm c h⟩
    · rw [hsuffix] at h
      rw [herase]
      exact List.mem_append_right pre h
  · intro hc
    have hc2 : cur ∈ R.2 := hc
    rcases f12 cur hc2 with h | h
    · exact hcc h
    · rw [hsuffix] at h
      exact hcursuf h

theorem maybe_apply_succ {σ : Type} (fuel cur : Nat) (chain : List Nat) (st : St σ) :
    meta_wayland_transaction_maybe_apply (fuel + 1) cur chain st =
      (match (meta_wayland_transaction_maybe_apply_one cur chain st).2 with
       | [] => (meta_wayland_transaction_maybe_apply_one cur chain st).1
       | c :: rest => meta_wayland_transaction_maybe_apply fuel c rest
           (meta_wayland_transaction_maybe_apply_one cur chain st).1) := rfl

theorem maybe_apply_preserves_inv {σ : Type} :
    ∀ (fuel cur : Nat) (chain : List Nat) (st : St σ),
      EngInv st → cur ∈ st.committed_queue →
      chain.Pairwise (· < ·) → (∀ c ∈ chain, c ∈ st.committed_queue) →
      cur ∉ chain →
      EngInv (meta_wayland_transaction_maybe_apply fuel cur chain st) := by
  intro fuel
  induction fuel with
  | zero =>
    intro cur chain st hinv _ _ _ _
    exact hinv
  | succ fuel ih =>
    intro cur chain st hinv hq hcp hcm hcc
    rw [maybe_apply_succ]
    by_cases hdeps : has_unapplied_dependencies st cur = true
    · have hone : meta_wayland_transaction_maybe_apply_one cur chain st = (st, chain) := by
        unfold meta_wayland_transaction_maybe_apply_one
        rw [hdeps]
        simp
      rw [hone]
      cases chain with
      | nil => exact hinv
      | cons c rest =>
        have hcp2 := List.pairwise_cons.mp hcp
        apply ih c rest st hinv (hcm c (List.mem_cons_self c rest)) hcp2.2
          (fun x hx => hcm x (List.mem_cons_of_mem c hx))
        intro hcr
        exact Nat.lt_irrefl c (hcp2.1 c hcr)
    · have hdeps2 : has_unapplied_dependencies st cur = false := by
        cases h : has_unapplied_dependencies st cur
        · rfl
        · exact absurd h hdeps
      have hready : ∀ s ∈ surfaces_of st cur, st.first_committed s = some cur := by
        intro s hs
        have := List.any_eq_false.mp (by
          unfold has_unapplied_dependencies at hdeps2
          exact hdeps2) s hs
        simpa using this
      obtain ⟨hinv2, hq2, happ2, hp2, hm2, hnc2⟩ :=
        apply_preserves_inv cur chain st hinv hq hready hcp hcm hcc
      have hone : meta_wayland_transaction_maybe_apply_one cur chain st =
          meta_wayland_transaction_apply cur chain st := by
        unfold meta_wayland_transaction_maybe_apply_one
        rw [hdeps2]
        simp
      rw [hone]
      cases hch : (meta_wayland_transaction_apply cur chain st).2 with
      | nil => exact hinv2
      | cons c rest =>
        rw [hch] at hp2 hm2 hnc2
        have hcp3 := List.pairwise_cons.mp hp2
        apply ih c rest _ hinv2 (hm2 c (List.mem_cons_self c rest)) hcp3.2
          (fun x hx => hm2 x (List.mem_cons_of_mem c hx))
        intro hcr
        exact Nat.lt_irrefl c (hcp3.1 c hcr)

theorem commit_preserves_inv {σ : Type} (tentries : Txn σ) (fuel : Nat) (st : St σ)
    (hinv : EngInv st) (hnd : (tentries.map (·.1)).Nodup) :
    EngInv (meta_wayland_transaction_commit tentries fuel st) := by
  have hkeys : surfaces_of (commit_push tentries st) (st.committed_sequence + 1) =
      tentries.map (·.1) := by
    unfold surfaces_of commit_push
    simp
  have hregeq : meta_wayland_transaction_commit_register (st.committed_sequence + 1)
      (commit_push tentries st) =
      (tentries.map (·.1)).foldl (commit_register_step (st.committed_sequence + 1))
        (commit_push tentries st, true) := by
    unfold meta_wayland_transaction_commit_register
    rw [hkeys]
  obtain ⟨h1, h2, h3, h4, h5, h6, h7, h8, h9, hlastS, hfirstS, hflag⟩ :=
    register_fold_spec (st.committed_sequence + 1) (tentries.map (·.1))
      (commit_push tentries st) true hnd
  set Reg := ((tentries.map (·.1)).foldl
    (commit_register_step (st.committed_sequence + 1))
    (commit_push tentries st, true)).1 with hReg
  have hRq : Reg.committed_queue = st.committed_queue ++ [st.committed_sequence + 1] := h1
  have hRe : Reg.entries = (commit_push tentries st).entries := h2
  have hRlog : Reg.log = st.log := h3
  have hRseq : Reg.committed_sequence = st.committed_sequence + 1 := h4
  have hRnode : Reg.node_data = (commit_push tentries st).node_data := h5
  have hRlast : ∀ s, Reg.last_committed s =
      if s ∈ tentries.map (·.1) then some (st.committed_sequence + 1)
      else st.last_committed s := hlastS
  have hRfirst : ∀ s, Reg.first_committed s =
      if s ∈ tentries.map (·.1) ∧ st.first_committed s = none then
        some (st.committed_sequence + 1)
      else st.first_committed s := hfirstS
  have happR : applied_ids Reg = applied_ids st := applied_ids_log _ _ hRlog
  have hsurfR : ∀ q, surfaces_of Reg q =
      if q = st.committed_sequence + 1 then tentries.map (·.1)
      else surfaces_of st q := by
    intro q
    unfold surfaces_of
    rw [hRe]
    show ((commit_push tentries st).entries q).map (·.1) = _
    unfold commit_push
    by_cases hq : q = st.committed_sequence + 1
    · simp [hq]
    · simp [hq]
  have htq : st.committed_sequence + 1 ∉ st.committed_queue := by
    intro hmem
    have := hinv.qbound _ hmem
    omega
  have hta : st.committed_sequence + 1 ∉ applied_ids st := by
    intro hmem
    have := hinv.abound _ hmem
    omega
  have hfiltR : ∀ (l : List Nat) (s : Nat), (∀ x ∈ l, x ≠ st.committed_sequence + 1) →
      l.filter (fun q => decide (s ∈ surfaces_of Reg q)) =
      l.filter (fun q => decide (s ∈ surfaces_of st q)) := by
    intro l s hl
    apply List.filter_congr
    intro x hx
    rw [hsurfR x, if_neg (hl x hx)]
  have hqne : ∀ x ∈ st.committed_queue, x ≠ st.committed_sequence + 1 := by
    intro x hx he
    exact htq (he ▸ hx)
  have hane : ∀ x ∈ applied_ids st, x ≠ st.committed_sequence + 1 := by
    intro x hx he
    exact hta (he ▸ hx)
  have hinvR : EngInv Reg := by
    refine ⟨⟨?_, ?_, ?_, ?_, ?_, ?_, ?_⟩, ?_, ?_, ?_, ?_⟩
    · rw [hRq, List.pairwise_append]
      refine ⟨hinv.qsorted, by simp, ?_⟩
      intro a ha b hb
      have hb2 : b = st.committed_sequence + 1 := by simpa using hb
      have := hinv.qbound a ha
      omega
    · intro q hq2
      rw [hRq] at hq2
      rw [hRseq]
      rcases List.mem_append.mp hq2 with h | h
      · have := hinv.qbound q h
        omega
      · have : q = st.committed_sequence + 1 := by simpa using h
        omega
    · intro q
      rw [hsurfR q]
      by_cases hq2 : q = st.committed_sequence + 1
      · rw [if_pos hq2]
        exact hnd
      · rw [if_neg hq2]
        exact hinv.keysnd q
    · intro q hq2
      rw [hRnode] at hq2
      have hq3 : (if q = st.committed_sequence + 1 then true else st.node_data q) = true := hq2
      by_cases hq4 : q = st.committed_sequence + 1
      · left
        rw [hRq, hq4]
        exact List.mem_append_right _ (List.mem_cons_self _ [])
      · rw [if_neg hq4] at hq3
        rcases hinv.node q hq3 with h | h
        · left
          rw [hRq]
          exact List.mem_append_left _ h
        · right
          rw [happR]
          exact h
    · intro q hq2
      rw [hRq] at hq2
      rw [hRnode]
      show (if q = st.committed_sequence + 1 then true else st.node_data q) = true
      rcases List.mem_append.mp hq2 with h | h
      · rw [if_neg (hqne q h)]
        exact hinv.nodef q h
      · rw [if_pos (by simpa using h)]
    · intro s
      rw [hRfirst s, hRq, List.filter_append, hfiltR _ s hqne]
      have hfone : [st.committed_sequence + 1].filter
          (fun q => decide (s ∈ surfaces_of Reg q)) =
          if s ∈ tentries.map (·.1) then [st.committed_sequence + 1] else [] := by
        by_cases hsk : s ∈ tentries.map (·.1)
        · rw [if_pos hsk]
          apply List.filter_cons_of_pos
          rw [hsurfR _, if_pos rfl]
          simpa using hsk
        · rw [if_neg hsk]
          apply List.filter_cons_of_neg
          rw [hsurfR _, if_pos rfl]
          simpa using hsk
      rw [hfone]
      by_cases hsk : s ∈ tentries.map (·.1)
      · rw [if_pos hsk]
        by_cases hfn : st.first_committed s = none
        · rw [if_pos ⟨hsk, hfn⟩]
          have hempty : st.committed_queue.filter
              (fun q => decide (s ∈ surfaces_of st q)) = [] := by
            have := hinv.first s
            rw [hfn] at this
            exact (List.head?_eq_none_iff).mp this.symm
          rw [hempty]
          rfl
        · rw [if_neg (fun hand => hfn hand.2)]
          obtain ⟨f, hf⟩ : ∃ f, st.first_committed s = some f := by
            cases hx : st.first_committed s
            · exact absurd hx hfn
            · exact ⟨_, rfl⟩
          rw [hf, List.head?_append]
          have := hinv.first s
          rw [hf] at this
          rw [← this]
          rfl
      · rw [if_neg (fun hand => hsk hand.1), if_neg hsk, List.append_nil]
        exact hinv.first s
    · intro s
      rw [hRlast s, hRq, List.filter_append, hfiltR _ s hqne]
      have hfone : [st.committed_sequence + 1].filter
          (fun q => decide (s ∈ surfaces_of Reg q)) =
          if s ∈ tentries.map (·.1) then [st.committed_sequence + 1] else [] := by
        by_cases hsk : s ∈ tentries.map (·.1)
        · rw [if_pos hsk]
          apply List.filter_cons_of_pos
          rw [hsurfR _, if_pos rfl]
          simpa using hsk
        · rw [if_neg hsk]
          apply List.filter_cons_of_neg
          rw [hsurfR _, if_pos rfl]
          simpa using hsk
      rw [hfone]
      by_cases hsk : s ∈ tentries.map (·.1)
      · rw [if_pos hsk, if_pos hsk, List.getLast?_concat]
      · rw [if_neg hsk, if_neg hsk, List.append_nil]
        exact hinv.last s
    · intro q hq2
      rw [happR] at hq2
      rw [hRseq]
      have := hinv.abound q hq2
      omega
    · intro q hq2
      rw [hRq] at hq2
      rw [happR]
      rcases List.mem_append.mp hq2 with h | h
      · exact hinv.qa q h
      · have : q = st.committed_sequence + 1 := by simpa using h
        rw [this]
        exact hta
    · intro s t1 t2 h1 h2 hs1 hs2
      rw [happR] at h1
      rw [hRq] at h2
      rw [hsurfR t1, if_neg (hane t1 h1)] at hs1
      rcases List.mem_append.mp h2 with h | h
      · rw [hsurfR t2, if_neg (hqne t2 h)] at hs2
        exact hinv.ord s t1 t2 h1 h hs1 hs2
      · have : t2 = st.committed_sequence + 1 := by simpa using h
        have := hinv.abound t1 h1
        omega
    · intro s
      have hfc : (applied_ids Reg).filter (fun q => decide (s ∈ surfaces_of Reg q)) =
          (applied_ids st).filter (fun q => decide (s ∈ surfaces_of st q)) := by
        rw [happR]
        exact hfiltR _ s hane
      rw [hfc]
      exact hinv.logs s
  have htmem : st.committed_sequence + 1 ∈ Reg.committed_queue := by
    rw [hRq]
    exact List.mem_append_right _ (List.mem_cons_self _ [])
  unfold meta_wayland_transaction_commit
  rw [hregeq]
  by_cases hflag2 : commit_invokes_engine tentries st = true
  · rw [if_pos hflag2]
    exact maybe_apply_preserves_inv fuel (st.committed_sequence + 1) [] Reg hinvR
      htmem List.Pairwise.nil (by simp) (by simp)
  · rw [if_neg hflag2]
    exact hinvR

theorem step_preserves_inv {σ : Type} {st st2 : St σ} (hinv : EngInv st)
    (hstep : Step st st2) : EngInv st2 := by
  cases hstep with
  | commit tentries fuel hnd => exact commit_preserves_inv tentries fuel _ hinv hnd
  | maybe_apply t fuel hmem =>
    exact maybe_apply_preserves_inv fuel t [] _ hinv hmem List.Pairwise.nil
      (by simp) (by simp)

theorem reachfrom_inv {σ : Type} {st0 st : St σ} (hinv : EngInv st0)
    (hreach : ReachFrom st0 st) : EngInv st := by
  induction hreach with
  | refl => exact hinv
  | step hr hs ih => exact step_preserves_inv ih hs

theorem enginv_of_wf_empty_log {σ : Type} (st : St σ) (hwf : EngWF st)
    (hlog : st.log = []) : EngInv st := by
  have happ : applied_ids st = [] := by
    unfold applied_ids
    rw [hlog]
    rfl
  refine ⟨hwf, ?_, ?_, ?_, ?_⟩
  · intro t ht
    rw [happ] at ht
    simp at ht
  · intro t _ ht
    rw [happ] at ht
    simp at ht
  · intro s t1 t2 h1 _ _ _
    rw [happ] at h1
    simp at h1
  · intro s
    rw [happ]
    exact List.Pairwise.nil

theorem engwf_init (σ : Type) (parent : Nat → Option Nat) (pfuel : Nat) :
    EngWF (St.init σ parent pfuel) := by
  refine ⟨?_, ?_, ?_, ?_, ?_, ?_, ?_⟩
  · exact List.Pairwise.nil
  · intro t ht
    simp [St.init] at ht
  · intro t
    show (([] : Txn σ).map (·.1)).Nodup
    simp
  · intro t ht
    simp [St.init] at ht
  · intro t ht
    simp [St.init] at ht
  · intro s
    rfl
  · intro s
    rfl

theorem pairwise_lt_sublist {l : List Nat} {t1 t2 : Nat} :
    l.Pairwise (· < ·) → t1 ∈ l → t2 ∈ l → t1 < t2 → [t1, t2].Sublist l := by
  induction l with
  | nil =>
    intro _ h1 _ _
    simp at h1
  | cons h rest ih =>
    intro hp h1 h2 hlt
    have hpc := List.pairwise_cons.mp hp
    rcases List.mem_cons.mp h1 with rfl | h1r
    · rcases List.mem_cons.mp h2 with rfl | h2r
      · exact absurd hlt (Nat.lt_irrefl _)
      · exact List.Sublist.cons₂ t1 (List.singleton_sublist.mpr h2r)
    · rcases List.mem_cons.mp h2 with rfl | h2r
      · have := hpc.1 t1 h1r
        omega
      · exact List.Sublist.cons h (ih hpc.2 h1r h2r hlt)

/-- C1: in every state reachable by commit/apply/cascade steps from a
well-formed state with an empty apply history, for any two committed
transactions t1, t2 that share a surface S, with t1 committed first (lower
commit sequence), apply is never invoked on t2 before t1: whenever t2 has
been applied, t1 was applied before it. -/
theorem c1_shared_surface_apply_order {σ : Type} (st0 st : St σ)
    (hwf : EngWF st0) (hlog : st0.log = []) (hreach : ReachFrom st0 st)
    (S t1 t2 : Nat) (h1 : st.node_data t1 = true) (h2 : st.node_data t2 = true)
    (hlt : t1 < t2) (hs1 : S ∈ surfaces_of st t1) (hs2 : S ∈ surfaces_of st t2)
    (happ : t2 ∈ applied_ids st) : [t1, t2].Sublist (applied_ids st) := by
  have hinv : EngInv st := reachfrom_inv (enginv_of_wf_empty_log st0 hwf hlog) hreach
  have h1app : t1 ∈ applied_ids st := by
    rcases hinv.node t1 h1 with h | h
    · have := hinv.ord S t2 t1 happ h hs2 hs1
      omega
    · exact h
  have hfsub : ([t1, t2]).Sublist
      ((applied_ids st).filter (fun t => decide (S ∈ surfaces_of st t))) := by
    apply pairwise_lt_sublist (hinv.logs S) ?_ ?_ hlt
    · exact List.mem_filter.mpr ⟨h1app, by simpa using hs1⟩
    · exact List.mem_filter.mpr ⟨happ, by simpa using hs2⟩
  exact hfsub.trans (List.filter_sublist _)

/-- Initial engine state used by the C1 witness. -/
def c1_state0 : St Unit := St.init Unit (fun _ => none) 0

/-- Entry table touching surface 0, used by the C1 witness. -/
def c1_ents : Txn Unit := [(0, ⟨some (), false, 0, 0⟩)]

/-- State after two commits of transactions touching surface 0, used by the
C1 witness. -/
def c1_state2 : St Unit :=
  meta_wayland_transaction_commit c1_ents 1
    (meta_wayland_transaction_commit c1_ents 1 c1_state0)

/-- Closed instance of c1_shared_surface_apply_order: two transactions both
touching surface 0, committed and applied in order. -/
theorem c1_shared_surface_apply_order_witness :
    c1_state0.log = [] ∧
    c1_state2.node_data 1 = true ∧
    c1_state2.node_data 2 = true ∧
    (0 : Nat) ∈ surfaces_of c1_state2 1 ∧
    (0 : Nat) ∈ surfaces_of c1_state2 2 ∧
    2 ∈ applied_ids c1_state2 ∧
    [1, 2].Sublist (applied_ids c1_state2) :=
  ⟨rfl, by decide, by decide, by decide, by decide, by decide,
   c1_shared_surface_apply_order c1_state0 c1_state2
     (engwf_init Unit (fun _ => none) 0) rfl
     (ReachFrom.step
       (ReachFrom.step ReachFrom.refl
         (Step.commit c1_state0 c1_ents 1 (by decide)))
       (Step.commit (meta_wayland_transaction_commit c1_ents 1 c1_state0)
         c1_ents 1 (by decide)))
     0 1 2 (by decide) (by decide) (by decide) (by decide) (by decide) (by decide)⟩
